import Mathlib

/-!
# Verification of the quota normalization/aggregation core

Shallow embedding of the quota aggregation layer of the Cli-Proxy-API
Management Center front end (`src/utils/format.ts` and its sibling builder
variants), together with the display-classification helper
`isExhaustedError` from `src/components/quota/QuotaCard.tsx`.

Modelling conventions:
* TypeScript `number | null` / optional fields become `Option ℚ`,
  `string | undefined` becomes `Option String`.
* `new Date(s).getTime()` is abstracted by a parameter
  `parse : String → Option ℤ` (milliseconds since epoch; `none` models `NaN`,
  i.e. an unparsable date string).  All theorems quantify over `parse`.
* The configuration tables `GEMINI_CLI_GROUP_LOOKUP` (from
  `src/utils/constants.ts`) and the ignore predicate
  `isIgnoredGeminiCliModel` (from `src/utils/validators.ts`) are imported by
  `format.ts` from files that are not part of the provided sources; following
  the spec (§3 GroupDefinition, §4.3 Model Filter) they are modelled as
  explicit parameters `lookup : String → Option GroupDefinition` and
  `ignored : String → Bool`, and all theorems quantify over them.
* JavaScript truthiness on strings (`if (s)`, `s ? a : b`, `s && e`) is
  modelled explicitly: `none` and `some ""` are falsy, every other string is
  truthy (`optTruthy`).
* A JavaScript `Map` is modelled as an association list in insertion order:
  `get` finds the first (unique) matching key, `set` on a fresh key appends.
  In-place mutation of a stored group object is modelled by replacing the
  entry at its position (`alSet`).
* `Object.entries(models)` is modelled as an association list
  `List (String × Option AntigravityQuotaInfo)`; JavaScript object keys are
  unique, which is taken as a hypothesis where a statement needs it.
-/

/-- JavaScript truthiness of a `string | undefined` value:
`undefined` and the empty string are falsy. -/
def optTruthy : Option String → Bool
  | none => false
  | some s => s ≠ ""

/-- The nullish-coalescing operator `a ?? b` on optional values. -/
def nullish {α : Type} : Option α → Option α → Option α
  | none, y => y
  | some x, _ => some x

/-- Embedding of `pickEarlierResetTime` (`src/utils/format.ts`, lines
188–196).  `parse` abstracts `new Date(·).getTime()`, with `none` for `NaN`.
The source guards `if (!current) return next; if (!next) return current;`
use string truthiness, so the empty string short-circuits like `undefined`. -/
def pickEarlierResetTime (parse : String → Option ℤ)
    (current next : Option String) : Option String :=
  match current with
  | none => next
  | some c =>
    if c = "" then next
    else
      match next with
      | none => some c
      | some n =>
        if n = "" then some c
        else
          match parse c, parse n with
          | none, _ => some n
          | some _, none => some c
          | some ct, some nt => if ct ≤ nt then some c else some n

/-- Embedding of `minNullableNumber` (`src/utils/format.ts`, lines 198–202). -/
def minNullableNumber : Option ℚ → Option ℚ → Option ℚ
  | none, next => next
  | some c, none => some c
  | some c, some n => some (min c n)

/-- C7: `minOptional(null, x) == x` and `minOptional(x, null) == x` for every
`x` (null is absence, never coerced to zero and never forcing a null result),
and for non-null `a`, `b` the numeric minimum is returned. -/
theorem claim_C7_minNullableNumber :
    (∀ x : Option ℚ, minNullableNumber none x = x ∧ minNullableNumber x none = x) ∧
    (∀ a b : ℚ, minNullableNumber (some a) (some b) = some (min a b)) := by
  refine ⟨fun x => ⟨rfl, ?_⟩, fun a b => rfl⟩
  cases x <;> rfl

/-- Optional-string parsing as the source performs it: the empty string and
`undefined` never reach `new Date`, every other string goes through `parse`. -/
def parseOf (parse : String → Option ℤ) : Option String → Option ℤ
  | none => none
  | some s => if s = "" then none else parse s

/-- A parse table standing in for `new Date(·).getTime()` in concrete
examples: three ISO strings map to their epoch milliseconds, everything else
is unparsable (`NaN`), as in JavaScript for strings such as `"xx"`. -/
def sampleDateParse : String → Option ℤ := fun s =>
  if s = "2025-01-01T00:00:00Z" then some 1735689600000
  else if s = "2025-03-01T00:00:00Z" then some 1740787200000
  else if s = "2025-06-01T00:00:00Z" then some 1748736000000
  else none

/-- C10: `pickEarlierResetTime` treats the empty string as an absent input:
`pickEarlier("", t)` returns `t` (for every `t`, even absent), and for every
present string `t`, `pickEarlier(t, "")` returns `t`; the empty string itself
is only returned when both arguments are empty or absent. -/
theorem claim_C10_pickEarlier_empty (parse : String → Option ℤ) :
    (∀ t : Option String, pickEarlierResetTime parse (some "") t = t) ∧
    (∀ s : String, pickEarlierResetTime parse (some s) (some "") = some s) ∧
    (∀ a b : Option String, pickEarlierResetTime parse a b = some "" →
      (a = none ∨ a = some "") ∧ (b = none ∨ b = some "")) := by
  refine ⟨fun t => by cases t <;> simp [pickEarlierResetTime], ?_, ?_⟩
  · intro s
    by_cases hs : s = "" <;> simp [pickEarlierResetTime, hs]
  · rintro (_|c) (_|n) h
    · simp [pickEarlierResetTime] at h
    · simp only [pickEarlierResetTime] at h
      exact ⟨Or.inl rfl, Or.inr h⟩
    · by_cases hc : c = ""
      · subst hc; simp [pickEarlierResetTime] at h
      · simp [pickEarlierResetTime, hc] at h
    · by_cases hc : c = ""
      · subst hc
        simp only [pickEarlierResetTime, if_pos rfl] at h
        exact ⟨Or.inr rfl, Or.inr h⟩
      · by_cases hn : n = ""
        · subst hn
          simp [pickEarlierResetTime, hc] at h
        · simp only [pickEarlierResetTime, if_neg hc, if_neg hn] at h
          rcases hp : parse c with _ | ct <;> rcases hq : parse n with _ | nt <;>
            simp [hp, hq] at h
          · exact absurd h hn
          · exact absurd h hn
          · exact absurd h hc
          · split at h <;> simp at h
            · exact absurd h hc
            · exact absurd h hn

/-- Witness for C10 at concrete inputs. -/
theorem claim_C10_witness :
    pickEarlierResetTime sampleDateParse (some "") (some "2025-01-01T00:00:00Z") =
      some "2025-01-01T00:00:00Z" ∧
    pickEarlierResetTime sampleDateParse (some "2025-01-01T00:00:00Z") (some "") =
      some "2025-01-01T00:00:00Z" ∧
    (((some "" : Option String) = none ∨ (some "" : Option String) = some "") ∧
     ((some "" : Option String) = none ∨ (some "" : Option String) = some "")) :=
  ⟨(claim_C10_pickEarlier_empty sampleDateParse).1 _,
   (claim_C10_pickEarlier_empty sampleDateParse).2.1 _,
   (claim_C10_pickEarlier_empty sampleDateParse).2.2 (some "") (some "") (by decide)⟩

/-- C6 counterexample: with two present inputs that both fail to parse
(`new Date("xx")` and `new Date("yy")` are both invalid in JavaScript),
`pickEarlierResetTime` returns its second argument, so swapping the arguments
changes the result even though no chronological tie of parsable inputs is
involved — the claimed commutativity-in-outcome fails. -/
theorem claim_C6_counterexample :
    ¬ (pickEarlierResetTime (fun _ => none) (some "xx") (some "yy") =
       pickEarlierResetTime (fun _ => none) (some "yy") (some "xx")) := by
  decide

/-- C6 (amended): `pickEarlierResetTime` is commutative in outcome except
(i) on an exact chronological tie of two parsable inputs the first argument
is favored, (ii) when both inputs are present, non-empty and unparsable the
second argument is returned, and (iii) between an absent argument and a
present empty string the second argument is returned verbatim; when both
inputs are present and exactly one of them parses (the empty string counts as
failing to parse), the parseable one is returned in either order. -/
theorem claim_C6_pickEarlier_commutative (parse : String → Option ℤ) :
    (∀ a b : Option String,
      (∀ t t', parseOf parse a = some t → parseOf parse b = some t' → t ≠ t') →
      ((parseOf parse a).isSome ∨ (parseOf parse b).isSome ∨
        a = none ∨ a = some "" ∨ b = none ∨ b = some "") →
      ¬(a = none ∧ b = some "") → ¬(a = some "" ∧ b = none) →
      pickEarlierResetTime parse a b = pickEarlierResetTime parse b a) ∧
    (∀ s n t, s ≠ "" → parse s = some t → (n = "" ∨ parse n = none) →
      pickEarlierResetTime parse (some s) (some n) = some s ∧
      pickEarlierResetTime parse (some n) (some s) = some s) := by
  constructor
  · rintro (_|s) (_|s') htie hboth hne1 hne2
    · rfl
    · by_cases hs : s' = ""
      · exact absurd ⟨rfl, by rw [hs]⟩ hne1
      · simp [pickEarlierResetTime, hs]
    · by_cases hs : s = ""
      · exact absurd ⟨by rw [hs], rfl⟩ hne2
      · simp [pickEarlierResetTime, hs]
    · by_cases hs : s = "" <;> by_cases hs' : s' = ""
      · subst hs; subst hs'; rfl
      · subst hs; simp [pickEarlierResetTime, hs']
      · subst hs'; simp [pickEarlierResetTime, hs]
      · simp only [pickEarlierResetTime, if_neg hs, if_neg hs']
        rcases hp : parse s with _ | ts <;> rcases hq : parse s' with _ | ts'
        · -- both unparsable and non-empty: excluded by hboth
          exfalso
          rcases hboth with h | h | h | h | h | h
          · simp [parseOf, hs, hp] at h
          · simp [parseOf, hs', hq] at h
          · exact Option.noConfusion h
          · exact hs (Option.some.injEq _ _ ▸ h ▸ rfl)
          · exact Option.noConfusion h
          · exact hs' (Option.some.injEq _ _ ▸ h ▸ rfl)
        · simp
        · simp
        · have hne : ts ≠ ts' := htie ts ts' (by simp [parseOf, hs, hp]) (by simp [parseOf, hs', hq])
          rcases lt_or_gt_of_ne hne with hlt | hgt
          · simp [hlt.le, not_le.mpr hlt]
          · simp [hgt.le, not_le.mpr hgt]
  · intro s n t hs hp hn
    constructor
    · rcases hn with hn | hn
      · subst hn; simp [pickEarlierResetTime, hs]
      · by_cases hn0 : n = "" <;> simp [pickEarlierResetTime, hs, hn0, hp, hn]
    · rcases hn with hn | hn
      · subst hn; simp [pickEarlierResetTime, hs]
      · by_cases hn0 : n = "" <;> simp [pickEarlierResetTime, hs, hn0, hp, hn]

/-- Witness for the amended C6 at concrete inputs. -/
theorem claim_C6_witness :
    (pickEarlierResetTime sampleDateParse
        (some "2025-01-01T00:00:00Z") (some "2025-06-01T00:00:00Z") =
      pickEarlierResetTime sampleDateParse
        (some "2025-06-01T00:00:00Z") (some "2025-01-01T00:00:00Z")) ∧
    (pickEarlierResetTime sampleDateParse (some "2025-01-01T00:00:00Z") (some "xx") =
        some "2025-01-01T00:00:00Z" ∧
      pickEarlierResetTime sampleDateParse (some "xx") (some "2025-01-01T00:00:00Z") =
        some "2025-01-01T00:00:00Z") :=
  ⟨(claim_C6_pickEarlier_commutative sampleDateParse).1 _ _
      (by intro t t' h1 h2; simp [parseOf, sampleDateParse] at h1 h2; omega)
      (Or.inl (by decide)) (by simp) (by simp),
   (claim_C6_pickEarlier_commutative sampleDateParse).2 _ "xx" 1735689600000
      (by decide) (by decide) (Or.inr (by decide))⟩

/-- Embedding of the `last_error` field shape (`src/types/authFile.ts`,
interface `LastError`).  `message` is typed as required in TypeScript, but the
consumer dereferences it with optional chaining (`message?.includes`), so it
is modelled as optional. -/
structure LastError where
  code : Option String
  message : Option String
  retryable : Bool
  http_status : Option ℕ
deriving DecidableEq

/-- Projection of `AuthFileItem` (`src/types/authFile.ts`) onto the field
read by `isExhaustedError`; `last_error?: LastError | null`. -/
structure AuthFileItem where
  last_error : Option LastError
deriving DecidableEq

/-- JavaScript `String.prototype.includes`: substring containment. -/
def strIncludes (s pat : String) : Bool := decide (pat.toList <:+: s.toList)

/-- Embedding of `isExhaustedError` (`src/components/quota/QuotaCard.tsx`,
lines 23–28): `http_status === 429` and the message contains one of the two
fixed resource-exhaustion substrings. -/
def isExhaustedError (item : AuthFileItem) : Bool :=
  match item.last_error with
  | none => false
  | some e =>
    decide (e.http_status = some 429) &&
      ((e.message.map fun m =>
          strIncludes m "RESOURCE_EXHAUSTED" ||
          strIncludes m "Resource has been exhausted").getD false)

/-- C9: `isExhaustedError(item)` is true iff the item's last recorded error
has HTTP status exactly 429 and its message contains one of the two fixed
resource-exhaustion substrings; in particular an otherwise identical item with
`http_status` 500 yields false, and an item with no last error yields false. -/
theorem claim_C9_isExhaustedError :
    (∀ item : AuthFileItem, isExhaustedError item = true ↔
      ∃ e, item.last_error = some e ∧ e.http_status = some 429 ∧
        ∃ m, e.message = some m ∧
          (strIncludes m "RESOURCE_EXHAUSTED" = true ∨
           strIncludes m "Resource has been exhausted" = true)) ∧
    isExhaustedError
      ⟨some ⟨none, some "quota hit: RESOURCE_EXHAUSTED, retry later", true, some 429⟩⟩ = true ∧
    isExhaustedError
      ⟨some ⟨none, some "quota hit: RESOURCE_EXHAUSTED, retry later", true, some 500⟩⟩ = false ∧
    isExhaustedError ⟨none⟩ = false := by
  refine ⟨?_, by decide, by decide, rfl⟩
  rintro ⟨_ | e⟩
  · simp [isExhaustedError]
  · rcases e with ⟨code, _ | m, retryable, st⟩ <;>
      simp [isExhaustedError, Bool.or_eq_true, and_assoc]

/-- Raw per-model quota bucket (`GeminiCliParsedBucket` from `@/types`;
spec §3 RawQuotaBucket). -/
structure GeminiCliParsedBucket where
  modelId : String
  tokenType : Option String
  remainingFraction : Option ℚ
  remainingAmount : Option ℚ
  resetTime : Option String
deriving DecidableEq

/-- Static group configuration entry (spec §3 GroupDefinition): the shape of
the values of `GEMINI_CLI_GROUP_LOOKUP`. -/
structure GroupDefinition where
  id : String
  label : String
  preferredModelId : Option String
deriving DecidableEq

/-- Aggregated quota group (`GeminiCliQuotaBucketState` from `@/types`;
spec §3 QuotaGroup). -/
structure GeminiCliQuotaBucketState where
  id : String
  label : String
  remainingFraction : Option ℚ
  remainingAmount : Option ℚ
  resetTime : Option String
  tokenType : Option String
  modelIds : List String
deriving DecidableEq

/-- The local accumulator type `GeminiCliQuotaBucketGroup` declared inside
`buildGeminiCliQuotaBuckets` (`src/utils/format.ts`, lines 209–219). -/
structure GeminiCliQuotaBucketGroup where
  id : String
  label : String
  tokenType : Option String
  modelIds : List String
  preferredModelId : Option String
  preferredBucket : Option GeminiCliParsedBucket
  fallbackRemainingFraction : Option ℚ
  fallbackRemainingAmount : Option ℚ
  fallbackResetTime : Option String
deriving DecidableEq

/-- `group?.id ?? bucket.modelId` (`format.ts`, line 226). -/
def geminiCliGroupId (lookup : String → Option GroupDefinition)
    (b : GeminiCliParsedBucket) : String :=
  ((lookup b.modelId).map (·.id)).getD b.modelId

/-- The composite map key `` `${groupId}::${tokenKey}` `` (`format.ts`,
line 229), with `tokenKey = bucket.tokenType ?? ''`. -/
def geminiCliMapKey (lookup : String → Option GroupDefinition)
    (b : GeminiCliParsedBucket) : String :=
  geminiCliGroupId lookup b ++ "::" ++ b.tokenType.getD ""

/-- The guard `preferredModelId && bucket.modelId === preferredModelId`
(`format.ts`, lines 234–235 and 261): string truthiness, so an unset or empty
preferred id never matches. -/
def matchesPreferred (pm : Option String) (b : GeminiCliParsedBucket) : Bool :=
  optTruthy pm && decide (b.modelId = pm.getD "")

/-- The group record created on first contact with a key (`format.ts`,
lines 232–248). -/
def initQuotaBucketGroup (lookup : String → Option GroupDefinition)
    (b : GeminiCliParsedBucket) : GeminiCliQuotaBucketGroup :=
  let gdef := lookup b.modelId
  let groupId := (gdef.map (·.id)).getD b.modelId
  let tokenKey := b.tokenType.getD ""
  let pmid := gdef.bind (·.preferredModelId)
  { id := if tokenKey = "" then groupId else groupId ++ "-" ++ tokenKey
    label := (gdef.map (·.label)).getD b.modelId
    tokenType := b.tokenType
    modelIds := [b.modelId]
    preferredModelId := pmid
    preferredBucket := if matchesPreferred pmid b then some b else none
    fallbackRemainingFraction := b.remainingFraction
    fallbackRemainingAmount := b.remainingAmount
    fallbackResetTime := b.resetTime }

/-- The in-place update of an existing group (`format.ts`, lines 250–263). -/
def updateQuotaBucketGroup (parse : String → Option ℤ)
    (g : GeminiCliQuotaBucketGroup) (b : GeminiCliParsedBucket) :
    GeminiCliQuotaBucketGroup :=
  { g with
    fallbackRemainingFraction :=
      minNullableNumber g.fallbackRemainingFraction b.remainingFraction
    fallbackRemainingAmount :=
      minNullableNumber g.fallbackRemainingAmount b.remainingAmount
    fallbackResetTime := pickEarlierResetTime parse g.fallbackResetTime b.resetTime
    modelIds := g.modelIds ++ [b.modelId]
    preferredBucket :=
      if matchesPreferred g.preferredModelId b then some b else g.preferredBucket }

/-- `Map.get`: first (unique) entry with the given key. -/
def alGet {α : Type} (m : List (String × α)) (k : String) : Option α :=
  (m.find? fun p => decide (p.1 = k)).map (·.2)

/-- `Map.set` on a key already present / in-place mutation of the stored
object: replace the entry at its position. -/
def alSet {α : Type} : List (String × α) → String → α → List (String × α)
  | [], k, v => [(k, v)]
  | p :: rest, k, v => if p.1 = k then (k, v) :: rest else p :: alSet rest k v

/-- One iteration of the `buckets.forEach` body (`format.ts`, lines
223–264). -/
def processGeminiCliBucket (lookup : String → Option GroupDefinition)
    (ignored : String → Bool) (parse : String → Option ℤ)
    (m : List (String × GeminiCliQuotaBucketGroup)) (b : GeminiCliParsedBucket) :
    List (String × GeminiCliQuotaBucketGroup) :=
  if ignored b.modelId then m
  else
    let key := geminiCliMapKey lookup b
    match alGet m key with
    | none => m ++ [(key, initQuotaBucketGroup lookup b)]
    | some g => alSet m key (updateQuotaBucketGroup parse g b)

/-- The `grouped` map after the `forEach` loop, in insertion order. -/
def geminiCliGrouped (lookup : String → Option GroupDefinition)
    (ignored : String → Bool) (parse : String → Option ℤ)
    (buckets : List GeminiCliParsedBucket) :
    List (String × GeminiCliQuotaBucketGroup) :=
  buckets.foldl (processGeminiCliBucket lookup ignored parse) []

/-- `Array.from(new Set(xs))`: deduplication keeping first occurrences. -/
def dedupKeepFirstAux : List String → List String → List String
  | _, [] => []
  | seen, x :: xs =>
    if x ∈ seen then dedupKeepFirstAux seen xs
    else x :: dedupKeepFirstAux (x :: seen) xs

/-- `Array.from(new Set(xs))`, entry point. -/
def dedupKeepFirst (l : List String) : List String := dedupKeepFirstAux [] l

/-- The final `map` lambda of `buildGeminiCliQuotaBuckets` (`format.ts`,
lines 266–283): preferred bucket wins verbatim, else the folded fallback. -/
def toQuotaBucketState (g : GeminiCliQuotaBucketGroup) : GeminiCliQuotaBucketState :=
  match g.preferredBucket with
  | some p =>
    { id := g.id, label := g.label
      remainingFraction := p.remainingFraction
      remainingAmount := p.remainingAmount
      resetTime := p.resetTime
      tokenType := g.tokenType
      modelIds := dedupKeepFirst g.modelIds }
  | none =>
    { id := g.id, label := g.label
      remainingFraction := g.fallbackRemainingFraction
      remainingAmount := g.fallbackRemainingAmount
      resetTime := g.fallbackResetTime
      tokenType := g.tokenType
      modelIds := dedupKeepFirst g.modelIds }

/-- Embedding of `buildGeminiCliQuotaBuckets` (`src/utils/format.ts`,
lines 204–284). -/
def buildGeminiCliQuotaBuckets (lookup : String → Option GroupDefinition)
    (ignored : String → Bool) (parse : String → Option ℤ)
    (buckets : List GeminiCliParsedBucket) : List GeminiCliQuotaBucketState :=
  if buckets.isEmpty then []
  else (geminiCliGrouped lookup ignored parse buckets).map fun p => toQuotaBucketState p.2

/-- Folding a list of all-ignored buckets leaves the map unchanged. -/
theorem foldl_ignored_eq (lookup : String → Option GroupDefinition)
    (ignored : String → Bool) (parse : String → Option ℤ) :
    ∀ (bs : List GeminiCliParsedBucket) (m : List (String × GeminiCliQuotaBucketGroup)),
      (∀ b ∈ bs, ignored b.modelId = true) →
      bs.foldl (processGeminiCliBucket lookup ignored parse) m = m := by
  intro bs
  induction bs with
  | nil => intro m _; rfl
  | cons b rest ih =>
    intro m h
    have hb : ignored b.modelId = true := h b (List.mem_cons_self _ _)
    have : processGeminiCliBucket lookup ignored parse m b = m := by
      simp [processGeminiCliBucket, hb]
    rw [List.foldl_cons, this]
    exact ih m fun x hx => h x (List.mem_cons_of_mem _ hx)

/-- C8: the bucket grouper maps the empty bucket sequence to the empty group
sequence, and a sequence whose every bucket has an ignored `modelId` also
yields the empty sequence; no error is raised and no group fabricated. -/
theorem claim_C8_empty_or_ignored (lookup : String → Option GroupDefinition)
    (ignored : String → Bool) (parse : String → Option ℤ) :
    buildGeminiCliQuotaBuckets lookup ignored parse [] = [] ∧
    (∀ buckets : List GeminiCliParsedBucket,
      (∀ b ∈ buckets, ignored b.modelId = true) →
      buildGeminiCliQuotaBuckets lookup ignored parse buckets = []) := by
  refine ⟨rfl, fun buckets h => ?_⟩
  unfold buildGeminiCliQuotaBuckets
  rcases buckets with _ | ⟨b, rest⟩
  · rfl
  · simp only [List.isEmpty_cons, if_neg Bool.false_ne_true]
    rw [geminiCliGrouped, foldl_ignored_eq lookup ignored parse _ _ h]
    rfl

/-- Witness for C8: a concrete all-ignored input yields no groups. -/
theorem claim_C8_witness :
    buildGeminiCliQuotaBuckets (fun _ => none) (fun s => s = "legacy-model")
      sampleDateParse
      [⟨"legacy-model", none, some (1/2), none, none⟩,
       ⟨"legacy-model", some "input", none, some 10, none⟩] = [] :=
  (claim_C8_empty_or_ignored _ _ _).2 _ (by decide)

/-- The buckets that contribute to the composite key `k`: not ignored, and
mapped to `k`. -/
def geminiCliContribs (lookup : String → Option GroupDefinition)
    (ignored : String → Bool) (k : String)
    (bs : List GeminiCliParsedBucket) : List GeminiCliParsedBucket :=
  bs.filter fun b => !(ignored b.modelId) && decide (geminiCliMapKey lookup b = k)

/-- The group a nonempty contribution list folds to: the first bucket creates
the group, the rest update it. -/
def buildGroupFrom (lookup : String → Option GroupDefinition)
    (parse : String → Option ℤ) (c0 : GeminiCliParsedBucket)
    (cs : List GeminiCliParsedBucket) : GeminiCliQuotaBucketGroup :=
  cs.foldl (updateQuotaBucketGroup parse) (initQuotaBucketGroup lookup c0)

theorem alGet_eq_none_iff {α : Type} (m : List (String × α)) (k : String) :
    alGet m k = none ↔ k ∉ m.map Prod.fst := by
  simp only [alGet, Option.map_eq_none', List.find?_eq_none, decide_eq_true_eq,
    List.mem_map]
  constructor
  · rintro h ⟨p, hp, rfl⟩
    exact h p hp rfl
  · intro h p hp hk
    exact h ⟨p, hp, hk⟩

theorem alGet_mem {α : Type} {m : List (String × α)} {k : String} {v : α}
    (h : alGet m k = some v) : (k, v) ∈ m := by
  simp only [alGet, Option.map_eq_some'] at h
  obtain ⟨p, hp, hv⟩ := h
  have h1 := List.mem_of_find?_eq_some hp
  have h2 := List.find?_some hp
  simp only [decide_eq_true_eq] at h2
  have : p = (k, v) := by
    cases p
    simp_all
  exact this ▸ h1

theorem alSet_map_fst {α : Type} (m : List (String × α)) (k : String) (v : α)
    (h : k ∈ m.map Prod.fst) : (alSet m k v).map Prod.fst = m.map Prod.fst := by
  induction m with
  | nil => simp at h
  | cons p rest ih =>
    by_cases hp : p.1 = k
    · simp [alSet, hp]
    · have hk : k ∈ rest.map Prod.fst := by
        rcases List.mem_map.mp h with ⟨q, hq, hqk⟩
        rcases List.mem_cons.mp hq with rfl | hq'
        · exact absurd hqk hp
        · exact List.mem_map.mpr ⟨q, hq', hqk⟩
      simp [alSet, hp, ih hk]

theorem mem_alSet {α : Type} (m : List (String × α)) (k : String) (v : α)
    (hnd : (m.map Prod.fst).Nodup) (q : String × α) :
    q ∈ alSet m k v ↔ (q = (k, v) ∨ (q ∈ m ∧ q.1 ≠ k)) := by
  induction m with
  | nil => simp [alSet]
  | cons p rest ih =>
    have hnd' : (rest.map Prod.fst).Nodup := (List.nodup_cons.mp (by simpa using hnd)).2
    have hpn : p.1 ∉ rest.map Prod.fst := (List.nodup_cons.mp (by simpa using hnd)).1
    by_cases hp : p.1 = k
    · simp only [alSet, if_pos hp, List.mem_cons]
      constructor
      · rintro (rfl | hq)
        · exact Or.inl rfl
        · refine Or.inr ⟨Or.inr hq, fun hk => ?_⟩
          exact hpn (by rw [hp, ← hk]; exact List.mem_map_of_mem Prod.fst hq)
      · rintro (rfl | ⟨(rfl | hq'), hqk⟩)
        · exact Or.inl rfl
        · exact absurd hp hqk
        · exact Or.inr hq'
    · simp only [alSet, if_neg hp, List.mem_cons, ih hnd']
      constructor
      · rintro (rfl | (rfl | ⟨hq, hqk⟩))
        · exact Or.inr ⟨Or.inl rfl, hp⟩
        · exact Or.inl rfl
        · exact Or.inr ⟨Or.inr hq, hqk⟩
      · rintro (rfl | ⟨(rfl | hq), hqk⟩)
        · exact Or.inr (Or.inl rfl)
        · exact Or.inl rfl
        · exact Or.inr (Or.inr ⟨hq, hqk⟩)

/-- Structural characterization of the `grouped` map: its keys are exactly
the composite keys of the non-ignored buckets, without duplicates, and each
entry is the fold of its contribution list. -/
theorem geminiCliGrouped_spec (lookup : String → Option GroupDefinition)
    (ignored : String → Bool) (parse : String → Option ℤ)
    (bs : List GeminiCliParsedBucket) :
    ((geminiCliGrouped lookup ignored parse bs).map Prod.fst).Nodup ∧
    (∀ k, k ∈ (geminiCliGrouped lookup ignored parse bs).map Prod.fst ↔
      ∃ b ∈ bs, ignored b.modelId = false ∧ geminiCliMapKey lookup b = k) ∧
    (∀ p ∈ geminiCliGrouped lookup ignored parse bs,
      ∃ c0 cs, geminiCliContribs lookup ignored p.1 bs = c0 :: cs ∧
        p.2 = buildGroupFrom lookup parse c0 cs) := by
  unfold geminiCliGrouped
  induction bs using List.reverseRecOn with
  | nil => exact ⟨List.nodup_nil, by simp, by simp⟩
  | append_singleton bs b ih =>
    obtain ⟨ih1, ih2, ih3⟩ := ih
    rw [List.foldl_append, List.foldl_cons, List.foldl_nil]
    set m := bs.foldl (processGeminiCliBucket lookup ignored parse) [] with hm
    by_cases hig : ignored b.modelId = true
    · have hpr : processGeminiCliBucket lookup ignored parse m b = m := by
        simp [processGeminiCliBucket, hig]
      rw [hpr]
      refine ⟨ih1, fun k => ?_, fun p hp => ?_⟩
      · rw [ih2 k]
        constructor
        · rintro ⟨b', hb', h⟩
          exact ⟨b', List.mem_append_left _ hb', h⟩
        · rintro ⟨b', hb', h⟩
          rcases List.mem_append.mp hb' with hb'' | hb''
          · exact ⟨b', hb'', h⟩
          · rw [List.mem_singleton.mp hb''] at h
            rw [hig] at h
            exact absurd h.1 (by simp)
      · obtain ⟨c0, cs, hcon, hbld⟩ := ih3 p hp
        refine ⟨c0, cs, ?_, hbld⟩
        rw [geminiCliContribs, List.filter_append, ← geminiCliContribs, hcon]
        simp [hig]
    · rw [Bool.not_eq_true] at hig
      have hstep : processGeminiCliBucket lookup ignored parse m b =
          (match alGet m (geminiCliMapKey lookup b) with
            | none => m ++ [(geminiCliMapKey lookup b, initQuotaBucketGroup lookup b)]
            | some g => alSet m (geminiCliMapKey lookup b)
                (updateQuotaBucketGroup parse g b)) := by
        simp [processGeminiCliBucket, hig]
      rcases halo : alGet m (geminiCliMapKey lookup b) with _ | g
      · -- fresh key: appended
        rw [hstep, halo]
        have hknotin : geminiCliMapKey lookup b ∉ m.map Prod.fst :=
          (alGet_eq_none_iff m _).mp halo
        have hnocon : geminiCliContribs lookup ignored (geminiCliMapKey lookup b) bs = [] := by
          rw [geminiCliContribs, List.filter_eq_nil_iff]
          intro a ha
          simp only [Bool.and_eq_true, Bool.not_eq_true', decide_eq_true_eq, not_and]
          intro hna hk
          exact hknotin ((ih2 _).mpr ⟨a, ha, hna, hk⟩)
        refine ⟨?_, fun k => ?_, fun p hp => ?_⟩
        · rw [List.map_append]
          simp only [List.map_cons, List.map_nil]
          exact List.Nodup.append ih1 (List.nodup_singleton _)
            (by simpa [List.disjoint_singleton] using hknotin)
        · rw [List.map_append]
          simp only [List.mem_append, List.map_cons, List.map_nil, List.mem_singleton]
          rw [ih2 k]
          constructor
          · rintro (⟨b', hb', h⟩ | rfl)
            · exact ⟨b', Or.inl hb', h⟩
            · exact ⟨b, Or.inr rfl, hig, rfl⟩
          · rintro ⟨b', hb'', h⟩
            rcases hb'' with hb'' | rfl
            · exact Or.inl ⟨b', hb'', h⟩
            · exact Or.inr h.2.symm
        · rcases List.mem_append.mp hp with hp' | hp'
          · obtain ⟨c0, cs, hcon, hbld⟩ := ih3 p hp'
            refine ⟨c0, cs, ?_, hbld⟩
            rw [geminiCliContribs, List.filter_append, ← geminiCliContribs, hcon]
            have hpk : p.1 ≠ geminiCliMapKey lookup b := fun h =>
              hknotin (h ▸ List.mem_map_of_mem Prod.fst hp')
            simp [hig]
            exact fun h => hpk h.symm
          · rw [List.mem_singleton.mp hp']
            refine ⟨b, [], ?_, rfl⟩
            rw [geminiCliContribs, List.filter_append, ← geminiCliContribs, hnocon]
            simp [hig]
      · -- existing key: updated in place
        rw [hstep, halo]
        have hkmem : (geminiCliMapKey lookup b) ∈ m.map Prod.fst :=
          List.mem_map_of_mem Prod.fst (alGet_mem halo)
        refine ⟨?_, fun k => ?_, fun p hp => ?_⟩
        · rw [alSet_map_fst m _ _ hkmem]; exact ih1
        · rw [alSet_map_fst m _ _ hkmem, ih2 k]
          constructor
          · rintro ⟨b', hb', h⟩
            exact ⟨b', List.mem_append_left _ hb', h⟩
          · rintro ⟨b', hb', h⟩
            rcases List.mem_append.mp hb' with hb'' | hb''
            · exact ⟨b', hb'', h⟩
            · rw [List.mem_singleton.mp hb''] at h
              rw [← h.2]
              exact (ih2 _).mp hkmem
        · rcases (mem_alSet m _ _ ih1 p).mp hp with rfl | ⟨hpm, hpk⟩
          · obtain ⟨c0, cs, hcon, hbld⟩ := ih3 _ (alGet_mem halo)
            refine ⟨c0, cs ++ [b], ?_, ?_⟩
            · rw [geminiCliContribs, List.filter_append, ← geminiCliContribs, hcon]
              simp [hig]
            · rw [buildGroupFrom, List.foldl_append, ← buildGroupFrom, ← hbld,
                List.foldl_cons, List.foldl_nil]
          · obtain ⟨c0, cs, hcon, hbld⟩ := ih3 p hpm
            refine ⟨c0, cs, ?_, hbld⟩
            rw [geminiCliContribs, List.filter_append, ← geminiCliContribs, hcon]
            simp [hig]
            exact fun h => hpk h.symm

theorem foldl_update_fields (parse : String → Option ℤ)
    (cs : List GeminiCliParsedBucket) :
    ∀ g : GeminiCliQuotaBucketGroup,
      (cs.foldl (updateQuotaBucketGroup parse) g).id = g.id ∧
      (cs.foldl (updateQuotaBucketGroup parse) g).label = g.label ∧
      (cs.foldl (updateQuotaBucketGroup parse) g).tokenType = g.tokenType ∧
      (cs.foldl (updateQuotaBucketGroup parse) g).preferredModelId = g.preferredModelId := by
  induction cs with
  | nil => exact fun g => ⟨rfl, rfl, rfl, rfl⟩
  | cons c rest ih =>
    intro g
    simp only [List.foldl_cons]
    exact ih (updateQuotaBucketGroup parse g c)

theorem foldl_update_modelIds (parse : String → Option ℤ)
    (cs : List GeminiCliParsedBucket) :
    ∀ g : GeminiCliQuotaBucketGroup,
      (cs.foldl (updateQuotaBucketGroup parse) g).modelIds =
        g.modelIds ++ cs.map (·.modelId) := by
  induction cs with
  | nil => intro g; simp
  | cons c rest ih =>
    intro g
    simp only [List.foldl_cons, List.map_cons]
    rw [ih (updateQuotaBucketGroup parse g c)]
    simp [updateQuotaBucketGroup]

/-- The last bucket of the list matching the (stored) preferred model id, as
accumulated by the loop, `none` when no bucket matches. -/
def lastPreferredMatch (pm : Option String) (l : List GeminiCliParsedBucket) :
    Option GeminiCliParsedBucket :=
  l.foldl (fun acc b => if matchesPreferred pm b then some b else acc) none

theorem foldl_update_preferredBucket (parse : String → Option ℤ)
    (cs : List GeminiCliParsedBucket) :
    ∀ g : GeminiCliQuotaBucketGroup,
      (cs.foldl (updateQuotaBucketGroup parse) g).preferredBucket =
        cs.foldl (fun acc b => if matchesPreferred g.preferredModelId b then some b else acc)
          g.preferredBucket := by
  induction cs with
  | nil => intro g; rfl
  | cons c rest ih =>
    intro g
    simp only [List.foldl_cons]
    exact ih (updateQuotaBucketGroup parse g c)

theorem foldl_update_fallbackFraction (parse : String → Option ℤ)
    (cs : List GeminiCliParsedBucket) :
    ∀ g : GeminiCliQuotaBucketGroup,
      (cs.foldl (updateQuotaBucketGroup parse) g).fallbackRemainingFraction =
        (cs.map (·.remainingFraction)).foldl minNullableNumber g.fallbackRemainingFraction := by
  induction cs with
  | nil => intro g; rfl
  | cons c rest ih =>
    intro g
    simp only [List.foldl_cons, List.map_cons]
    exact ih (updateQuotaBucketGroup parse g c)

theorem foldl_update_fallbackAmount (parse : String → Option ℤ)
    (cs : List GeminiCliParsedBucket) :
    ∀ g : GeminiCliQuotaBucketGroup,
      (cs.foldl (updateQuotaBucketGroup parse) g).fallbackRemainingAmount =
        (cs.map (·.remainingAmount)).foldl minNullableNumber g.fallbackRemainingAmount := by
  induction cs with
  | nil => intro g; rfl
  | cons c rest ih =>
    intro g
    simp only [List.foldl_cons, List.map_cons]
    exact ih (updateQuotaBucketGroup parse g c)

theorem foldl_update_fallbackResetTime (parse : String → Option ℤ)
    (cs : List GeminiCliParsedBucket) :
    ∀ g : GeminiCliQuotaBucketGroup,
      (cs.foldl (updateQuotaBucketGroup parse) g).fallbackResetTime =
        (cs.map (·.resetTime)).foldl (pickEarlierResetTime parse) g.fallbackResetTime := by
  induction cs with
  | nil => intro g; rfl
  | cons c rest ih =>
    intro g
    simp only [List.foldl_cons, List.map_cons]
    exact ih (updateQuotaBucketGroup parse g c)

theorem minNullable_eq_none_iff (a b : Option ℚ) :
    minNullableNumber a b = none ↔ a = none ∧ b = none := by
  cases a <;> cases b <;> simp [minNullableNumber]

theorem minNullable_eq_some {a b : Option ℚ} {v : ℚ} (h : minNullableNumber a b = some v) :
    (a = some v ∨ b = some v) ∧ (∀ w, a = some w → v ≤ w) ∧ (∀ w, b = some w → v ≤ w) := by
  cases a with
  | none =>
    cases b with
    | none => exact absurd h (by simp [minNullableNumber])
    | some bv =>
      have hb : bv = v := by simpa [minNullableNumber] using h
      subst hb
      exact ⟨Or.inr rfl, by simp, fun w hw => le_of_eq (Option.some.inj hw)⟩
  | some av =>
    cases b with
    | none =>
      have ha : av = v := by simpa [minNullableNumber] using h
      subst ha
      exact ⟨Or.inl rfl, fun w hw => le_of_eq (Option.some.inj hw), by simp⟩
    | some bv =>
      have hv : min av bv = v := by simpa [minNullableNumber] using h
      subst hv
      refine ⟨?_, fun w hw => ?_, fun w hw => ?_⟩
      · rcases min_choice av bv with h' | h'
        · exact Or.inl (by rw [h'])
        · exact Or.inr (by rw [h'])
      · rw [← Option.some.inj hw]; exact min_le_left _ _
      · rw [← Option.some.inj hw]; exact min_le_right _ _

theorem foldl_minNullable_spec : ∀ (l : List (Option ℚ)) (acc : Option ℚ),
    (l.foldl minNullableNumber acc = none ↔ (acc = none ∧ ∀ x ∈ l, x = none)) ∧
    (∀ v, l.foldl minNullableNumber acc = some v →
      (acc = some v ∨ some v ∈ l) ∧
      (∀ w, acc = some w → v ≤ w) ∧ (∀ w, some w ∈ l → v ≤ w)) := by
  intro l
  induction l with
  | nil =>
    intro acc
    refine ⟨by simp, fun v hv => ⟨Or.inl hv, fun w hw => ?_, by simp⟩⟩
    have hv' : acc = some v := hv
    rw [hv'] at hw
    exact le_of_eq (Option.some.inj hw)
  | cons x rest ih =>
    intro acc
    simp only [List.foldl_cons]
    obtain ⟨ih1, ih2⟩ := ih (minNullableNumber acc x)
    constructor
    · rw [ih1, minNullable_eq_none_iff]
      constructor
      · rintro ⟨⟨ha, hx⟩, hall⟩
        refine ⟨ha, fun y hy => ?_⟩
        rcases List.mem_cons.mp hy with rfl | hy'
        exacts [hx, hall y hy']
      · rintro ⟨ha, hall⟩
        exact ⟨⟨ha, hall x (List.mem_cons_self _ _)⟩,
          fun y hy => hall y (List.mem_cons_of_mem _ hy)⟩
    · intro v hv
      obtain ⟨hmem, hacc, hrest⟩ := ih2 v hv
      refine ⟨?_, fun w hw => ?_, fun w hw => ?_⟩
      · rcases hmem with hm | hm
        · rcases (minNullable_eq_some hm).1 with h' | h'
          · exact Or.inl h'
          · exact Or.inr (List.mem_cons.mpr (Or.inl h'.symm))
        · exact Or.inr (List.mem_cons_of_mem _ hm)
      · rcases hmx : minNullableNumber acc x with _ | u
        · rw [minNullable_eq_none_iff] at hmx
          rw [hmx.1] at hw
          exact Option.noConfusion hw
        · exact le_trans (hacc u hmx) ((minNullable_eq_some hmx).2.1 w hw)
      · rcases List.mem_cons.mp hw with hw' | hw'
        · rcases hmx : minNullableNumber acc x with _ | u
          · rw [minNullable_eq_none_iff] at hmx
            rw [hmx.2] at hw'
            exact Option.noConfusion hw'
          · exact le_trans (hacc u hmx) ((minNullable_eq_some hmx).2.2 w hw'.symm)
        · exact hrest w hw'

theorem pickEarlier_cases (parse : String → Option ℤ) (a b : Option String) :
    pickEarlierResetTime parse a b = a ∨ pickEarlierResetTime parse a b = b := by
  rcases a with _ | s
  · exact Or.inr rfl
  · by_cases hs : s = ""
    · exact Or.inr (by simp [pickEarlierResetTime, hs])
    · rcases b with _ | n
      · exact Or.inl (by simp [pickEarlierResetTime, hs])
      · by_cases hn : n = ""
        · exact Or.inl (by simp [pickEarlierResetTime, hs, hn])
        · simp only [pickEarlierResetTime, if_neg hs, if_neg hn]
          rcases parse s with _ | ts <;> rcases parse n with _ | tn
          · exact Or.inr rfl
          · exact Or.inr rfl
          · exact Or.inl rfl
          · by_cases hle : ts ≤ tn
            · exact Or.inl (by simp [hle])
            · exact Or.inr (by simp [hle])

theorem pickEarlier_both {parse : String → Option ℤ} {a b : Option String} {ta tb : ℤ}
    (ha : parseOf parse a = some ta) (hb : parseOf parse b = some tb) :
    (ta ≤ tb ∧ pickEarlierResetTime parse a b = a) ∨
    (tb < ta ∧ pickEarlierResetTime parse a b = b) := by
  rcases a with _ | s
  · simp [parseOf] at ha
  rcases b with _ | n
  · simp [parseOf] at hb
  by_cases hs : s = ""
  · simp [parseOf, hs] at ha
  by_cases hn : n = ""
  · simp [parseOf, hn] at hb
  simp only [parseOf, if_neg hs] at ha
  simp only [parseOf, if_neg hn] at hb
  simp only [pickEarlierResetTime, if_neg hs, if_neg hn, ha, hb]
  by_cases hle : ta ≤ tb
  · exact Or.inl ⟨hle, by simp [hle]⟩
  · exact Or.inr ⟨not_le.mp hle, by simp [hle]⟩

theorem pickEarlier_keepLeft {parse : String → Option ℤ} {a b : Option String} {ta : ℤ}
    (ha : parseOf parse a = some ta) (hb : parseOf parse b = none) :
    pickEarlierResetTime parse a b = a := by
  rcases a with _ | s
  · simp [parseOf] at ha
  by_cases hs : s = ""
  · simp [parseOf, hs] at ha
  simp only [parseOf, if_neg hs] at ha
  rcases b with _ | n
  · simp [pickEarlierResetTime, hs]
  · by_cases hn : n = ""
    · simp [pickEarlierResetTime, hs, hn]
    · simp only [parseOf, if_neg hn] at hb
      simp [pickEarlierResetTime, hs, hn, ha, hb]

theorem pickEarlier_takeRight {parse : String → Option ℤ} {a b : Option String}
    (ha : parseOf parse a = none) (hb : (parseOf parse b).isSome = true) :
    pickEarlierResetTime parse a b = b := by
  rcases b with _ | n
  · simp [parseOf] at hb
  by_cases hn : n = ""
  · simp [parseOf, hn] at hb
  rcases a with _ | s
  · rfl
  by_cases hs : s = ""
  · simp [pickEarlierResetTime, hs]
  simp only [parseOf, if_neg hs] at ha
  simp only [parseOf, if_neg hn] at hb
  rcases hq : parse n with _ | tn
  · rw [hq] at hb; simp at hb
  · simp [pickEarlierResetTime, hs, hn, ha, hq]

theorem foldl_pickEarlier_unparsable (parse : String → Option ℤ) :
    ∀ (l : List (Option String)) (acc : Option String),
      parseOf parse acc = none → (∀ x ∈ l, parseOf parse x = none) →
      parseOf parse (l.foldl (pickEarlierResetTime parse) acc) = none := by
  intro l
  induction l with
  | nil => exact fun acc h _ => h
  | cons x rest ih =>
    intro acc ha hall
    simp only [List.foldl_cons]
    refine ih _ ?_ (fun y hy => hall y (List.mem_cons_of_mem _ hy))
    rcases pickEarlier_cases parse acc x with h | h <;> rw [h]
    exacts [ha, hall x (List.mem_cons_self _ _)]

/-- The accumulated reset time is a parsable input whose timestamp is minimal
among the accumulator and all parsable list members, provided any of them is
parsable. -/
theorem foldl_pickEarlier_min (parse : String → Option ℤ) :
    ∀ (l : List (Option String)) (acc : Option String),
      ((parseOf parse acc).isSome = true ∨ ∃ x ∈ l, (parseOf parse x).isSome = true) →
      ∃ t, parseOf parse (l.foldl (pickEarlierResetTime parse) acc) = some t ∧
        (l.foldl (pickEarlierResetTime parse) acc = acc ∨
         l.foldl (pickEarlierResetTime parse) acc ∈ l) ∧
        (∀ t', parseOf parse acc = some t' → t ≤ t') ∧
        (∀ x t', x ∈ l → parseOf parse x = some t' → t ≤ t') := by
  intro l
  induction l with
  | nil =>
    rintro acc (hacc | ⟨x, hx, _⟩)
    · obtain ⟨t, ht⟩ := Option.isSome_iff_exists.mp hacc
      refine ⟨t, ht, Or.inl rfl, fun t' ht' => ?_, by simp⟩
      rw [ht] at ht'
      exact le_of_eq (Option.some.inj ht')
    · exact absurd hx (List.not_mem_nil x)
  | cons x rest ih =>
    intro acc hyp
    simp only [List.foldl_cons]
    have hstep : (parseOf parse (pickEarlierResetTime parse acc x)).isSome = true ∨
        ∃ y ∈ rest, (parseOf parse y).isSome = true := by
      rcases hpa : parseOf parse acc with _ | ta
      · rcases hpx : parseOf parse x with _ | tx
        · rcases hyp with h | ⟨y, hy, hysome⟩
          · rw [hpa] at h; simp at h
          · rcases List.mem_cons.mp hy with rfl | hy'
            · rw [hpx] at hysome; simp at hysome
            · exact Or.inr ⟨y, hy', hysome⟩
        · rw [pickEarlier_takeRight hpa (by rw [hpx]; rfl)]
          rw [hpx]
          exact Or.inl rfl
      · rcases hpx : parseOf parse x with _ | tx
        · rw [pickEarlier_keepLeft hpa hpx, hpa]
          exact Or.inl rfl
        · rcases pickEarlier_both hpa hpx with ⟨_, heq⟩ | ⟨_, heq⟩ <;> rw [heq]
          · rw [hpa]; exact Or.inl rfl
          · rw [hpx]; exact Or.inl rfl
    obtain ⟨t, ht, hloc, hbacc, hbrest⟩ := ih (pickEarlierResetTime parse acc x) hstep
    refine ⟨t, ht, ?_, fun t' ht' => ?_, fun y t' hy hty => ?_⟩
    · rcases hloc with h | h
      · rcases pickEarlier_cases parse acc x with h' | h'
        · exact Or.inl (h.trans h')
        · exact Or.inr (List.mem_cons.mpr (Or.inl (h.trans h')))
      · exact Or.inr (List.mem_cons_of_mem _ h)
    · -- bound against the accumulator
      rcases hpx : parseOf parse x with _ | tx
      · exact hbacc t' (by rw [pickEarlier_keepLeft ht' hpx]; exact ht')
      · rcases pickEarlier_both ht' hpx with ⟨hle, heq⟩ | ⟨hlt, heq⟩
        · exact hbacc t' (by rw [heq]; exact ht')
        · exact le_trans (hbacc tx (by rw [heq]; exact hpx)) hlt.le
    · -- bound against members
      rcases List.mem_cons.mp hy with rfl | hy'
      · rcases hpa : parseOf parse acc with _ | ta
        · exact hbacc t' (by rw [pickEarlier_takeRight hpa (by rw [hty]; rfl)]; exact hty)
        · rcases pickEarlier_both hpa hty with ⟨hle, heq⟩ | ⟨hlt, heq⟩
          · exact le_trans (hbacc ta (by rw [heq]; exact hpa)) hle
          · exact hbacc t' (by rw [heq]; exact hty)
      · exact hbrest y t' hy' hty

theorem foldl_lastMatch_keep (pm : Option String) :
    ∀ (l : List GeminiCliParsedBucket) (acc : Option GeminiCliParsedBucket),
      (∀ b ∈ l, matchesPreferred pm b = false) →
      l.foldl (fun a b => if matchesPreferred pm b then some b else a) acc = acc := by
  intro l
  induction l with
  | nil => exact fun acc _ => rfl
  | cons c rest ih =>
    intro acc hall
    simp only [List.foldl_cons, hall c (List.mem_cons_self _ _), if_neg Bool.false_ne_true]
    exact ih acc fun b hb => hall b (List.mem_cons_of_mem _ hb)

theorem foldl_lastMatch_some (pm : Option String) :
    ∀ (l : List GeminiCliParsedBucket) (acc : Option GeminiCliParsedBucket)
      (c : GeminiCliParsedBucket),
      l.foldl (fun a b => if matchesPreferred pm b then some b else a) acc = some c →
      (c ∈ l ∧ matchesPreferred pm c = true) ∨ acc = some c := by
  intro l
  induction l with
  | nil => exact fun acc c h => Or.inr h
  | cons x rest ih =>
    intro acc c h
    simp only [List.foldl_cons] at h
    rcases ih _ c h with ⟨hc, hm⟩ | hc
    · exact Or.inl ⟨List.mem_cons_of_mem _ hc, hm⟩
    · by_cases hx : matchesPreferred pm x = true
      · rw [if_pos hx] at hc
        have hxc : x = c := Option.some.inj hc
        exact Or.inl ⟨List.mem_cons.mpr (Or.inl hxc.symm), hxc ▸ hx⟩
      · rw [if_neg hx] at hc
        exact Or.inr hc

theorem foldl_lastMatch_isSome (pm : Option String) :
    ∀ (l : List GeminiCliParsedBucket) (acc : Option GeminiCliParsedBucket),
      ((∃ b ∈ l, matchesPreferred pm b = true) ∨ acc.isSome = true) →
      (l.foldl (fun a b => if matchesPreferred pm b then some b else a) acc).isSome = true := by
  intro l
  induction l with
  | nil =>
    rintro acc (⟨b, hb, _⟩ | h)
    · exact absurd hb (List.not_mem_nil b)
    · exact h
  | cons x rest ih =>
    rintro acc (⟨b, hb, hbm⟩ | h)
    · rcases List.mem_cons.mp hb with rfl | hb'
      · simp only [List.foldl_cons, hbm, if_pos rfl]
        exact ih _ (Or.inr rfl)
      · exact ih _ (Or.inl ⟨b, hb', hbm⟩)
    · simp only [List.foldl_cons]
      by_cases hx : matchesPreferred pm x = true
      · rw [if_pos hx]; exact ih _ (Or.inr rfl)
      · rw [if_neg hx]; exact ih _ (Or.inr h)

theorem buildGemini_eq_map (lookup : String → Option GroupDefinition)
    (ignored : String → Bool) (parse : String → Option ℤ)
    (bs : List GeminiCliParsedBucket) :
    buildGeminiCliQuotaBuckets lookup ignored parse bs =
      (geminiCliGrouped lookup ignored parse bs).map (fun p => toQuotaBucketState p.2) := by
  cases bs <;> rfl

theorem mem_dedupKeepFirstAux :
    ∀ (l seen : List String) (x : String),
      x ∈ dedupKeepFirstAux seen l ↔ x ∈ l ∧ x ∉ seen := by
  intro l
  induction l with
  | nil => simp [dedupKeepFirstAux]
  | cons y ys ih =>
    intro seen x
    by_cases hy : y ∈ seen
    · rw [dedupKeepFirstAux, if_pos hy, ih]
      constructor
      · rintro ⟨hx, hxs⟩
        exact ⟨List.mem_cons_of_mem _ hx, hxs⟩
      · rintro ⟨hx, hxs⟩
        rcases List.mem_cons.mp hx with rfl | hx'
        · exact absurd hy hxs
        · exact ⟨hx', hxs⟩
    · rw [dedupKeepFirstAux, if_neg hy]
      simp only [List.mem_cons, ih]
      constructor
      · rintro (rfl | ⟨hx, hxs⟩)
        · exact ⟨Or.inl rfl, hy⟩
        · exact ⟨Or.inr hx, fun hc => hxs (Or.inr hc)⟩
      · rintro ⟨rfl | hx, hxs⟩
        · exact Or.inl rfl
        · by_cases hxy : x = y
          · exact Or.inl hxy
          · exact Or.inr ⟨hx, fun hc => by
              rcases hc with h' | h'
              exacts [hxy h', hxs h']⟩

theorem nodup_dedupKeepFirstAux :
    ∀ (l seen : List String), (dedupKeepFirstAux seen l).Nodup := by
  intro l
  induction l with
  | nil => intro seen; exact List.nodup_nil
  | cons y ys ih =>
    intro seen
    by_cases hy : y ∈ seen
    · rw [dedupKeepFirstAux, if_pos hy]; exact ih seen
    · rw [dedupKeepFirstAux, if_neg hy]
      refine List.nodup_cons.mpr ⟨fun hc => ?_, ih (y :: seen)⟩
      exact ((mem_dedupKeepFirstAux ys (y :: seen) y).mp hc).2 (List.mem_cons_self _ _)

theorem mem_dedupKeepFirst (l : List String) (x : String) :
    x ∈ dedupKeepFirst l ↔ x ∈ l := by
  rw [dedupKeepFirst, mem_dedupKeepFirstAux]
  simp

theorem nodup_dedupKeepFirst (l : List String) : (dedupKeepFirst l).Nodup :=
  nodup_dedupKeepFirstAux l []

theorem toQuotaBucketState_modelIds (g : GeminiCliQuotaBucketGroup) :
    (toQuotaBucketState g).modelIds = dedupKeepFirst g.modelIds := by
  cases hg : g.preferredBucket <;> simp [toQuotaBucketState, hg]

theorem toQuotaBucketState_preferred {g : GeminiCliQuotaBucketGroup}
    {c : GeminiCliParsedBucket} (h : g.preferredBucket = some c) :
    (toQuotaBucketState g).remainingFraction = c.remainingFraction ∧
    (toQuotaBucketState g).remainingAmount = c.remainingAmount ∧
    (toQuotaBucketState g).resetTime = c.resetTime := by
  simp [toQuotaBucketState, h]

theorem toQuotaBucketState_fallback {g : GeminiCliQuotaBucketGroup}
    (h : g.preferredBucket = none) :
    (toQuotaBucketState g).remainingFraction = g.fallbackRemainingFraction ∧
    (toQuotaBucketState g).remainingAmount = g.fallbackRemainingAmount ∧
    (toQuotaBucketState g).resetTime = g.fallbackResetTime := by
  simp [toQuotaBucketState, h]

theorem eq_of_mem_keyNodup {α : Type} :
    ∀ (m : List (String × α)), (m.map Prod.fst).Nodup →
      ∀ p q : String × α, p ∈ m → q ∈ m → p.1 = q.1 → p = q := by
  intro m
  induction m with
  | nil => intro _ p q hp; exact absurd hp (List.not_mem_nil p)
  | cons r rest ih =>
    intro hnd p q hp hq hk
    have hrn : r.1 ∉ rest.map Prod.fst := (List.nodup_cons.mp (by simpa using hnd)).1
    have hnd' : (rest.map Prod.fst).Nodup := (List.nodup_cons.mp (by simpa using hnd)).2
    rcases List.mem_cons.mp hp with rfl | hp'
    · rcases List.mem_cons.mp hq with rfl | hq'
      · rfl
      · exact absurd (hk ▸ List.mem_map_of_mem Prod.fst hq') hrn
    · rcases List.mem_cons.mp hq with rfl | hq'
      · exact absurd (hk ▸ List.mem_map_of_mem Prod.fst hp') hrn
      · exact ih hnd' p q hp' hq' hk

theorem buildGroupFrom_modelIds (lookup : String → Option GroupDefinition)
    (parse : String → Option ℤ) (c0 : GeminiCliParsedBucket)
    (cs : List GeminiCliParsedBucket) :
    (buildGroupFrom lookup parse c0 cs).modelIds = c0.modelId :: cs.map (·.modelId) := by
  rw [buildGroupFrom, foldl_update_modelIds]
  rfl

theorem buildGroupFrom_preferredModelId (lookup : String → Option GroupDefinition)
    (parse : String → Option ℤ) (c0 : GeminiCliParsedBucket)
    (cs : List GeminiCliParsedBucket) :
    (buildGroupFrom lookup parse c0 cs).preferredModelId =
      (lookup c0.modelId).bind (·.preferredModelId) :=
  (foldl_update_fields parse cs _).2.2.2

theorem buildGroupFrom_preferredBucket (lookup : String → Option GroupDefinition)
    (parse : String → Option ℤ) (c0 : GeminiCliParsedBucket)
    (cs : List GeminiCliParsedBucket) :
    (buildGroupFrom lookup parse c0 cs).preferredBucket =
      lastPreferredMatch ((lookup c0.modelId).bind (·.preferredModelId)) (c0 :: cs) := by
  rw [buildGroupFrom, foldl_update_preferredBucket, lastPreferredMatch, List.foldl_cons]
  rfl

theorem buildGroupFrom_fallbackFraction (lookup : String → Option GroupDefinition)
    (parse : String → Option ℤ) (c0 : GeminiCliParsedBucket)
    (cs : List GeminiCliParsedBucket) :
    (buildGroupFrom lookup parse c0 cs).fallbackRemainingFraction =
      ((c0 :: cs).map (·.remainingFraction)).foldl minNullableNumber none := by
  rw [buildGroupFrom, foldl_update_fallbackFraction, List.map_cons, List.foldl_cons]
  rfl

theorem buildGroupFrom_fallbackAmount (lookup : String → Option GroupDefinition)
    (parse : String → Option ℤ) (c0 : GeminiCliParsedBucket)
    (cs : List GeminiCliParsedBucket) :
    (buildGroupFrom lookup parse c0 cs).fallbackRemainingAmount =
      ((c0 :: cs).map (·.remainingAmount)).foldl minNullableNumber none := by
  rw [buildGroupFrom, foldl_update_fallbackAmount, List.map_cons, List.foldl_cons]
  rfl

theorem buildGroupFrom_fallbackResetTime (lookup : String → Option GroupDefinition)
    (parse : String → Option ℤ) (c0 : GeminiCliParsedBucket)
    (cs : List GeminiCliParsedBucket) :
    (buildGroupFrom lookup parse c0 cs).fallbackResetTime =
      ((c0 :: cs).map (·.resetTime)).foldl (pickEarlierResetTime parse) none := by
  rw [buildGroupFrom, foldl_update_fallbackResetTime, List.map_cons, List.foldl_cons]
  rfl

theorem matchesPreferred_some {p : String} (hp : p ≠ "") (b : GeminiCliParsedBucket) :
    matchesPreferred (some p) b = true ↔ b.modelId = p := by
  simp [matchesPreferred, optTruthy, hp]

/-- C4: every emitted `QuotaGroup` has a non-empty, duplicate-free `modelIds`
list, and each non-ignored input bucket contributes its `modelId` to exactly
one group — the unique entry of the grouped map at the composite key derived
from its `groupId` and `tokenType`. -/
theorem claim_C4_group_membership (lookup : String → Option GroupDefinition)
    (ignored : String → Bool) (parse : String → Option ℤ)
    (bs : List GeminiCliParsedBucket) :
    (∀ g ∈ buildGeminiCliQuotaBuckets lookup ignored parse bs,
      g.modelIds ≠ [] ∧ g.modelIds.Nodup) ∧
    (∀ b ∈ bs, ignored b.modelId = false →
      ∃ p, p ∈ geminiCliGrouped lookup ignored parse bs ∧
        p.1 = geminiCliMapKey lookup b ∧
        (∀ q ∈ geminiCliGrouped lookup ignored parse bs,
          q.1 = geminiCliMapKey lookup b → q = p) ∧
        b.modelId ∈ (toQuotaBucketState p.2).modelIds ∧
        toQuotaBucketState p.2 ∈ buildGeminiCliQuotaBuckets lookup ignored parse bs) := by
  obtain ⟨h1, h2, h3⟩ := geminiCliGrouped_spec lookup ignored parse bs
  constructor
  · intro g hg
    rw [buildGemini_eq_map] at hg
    obtain ⟨p, hp, rfl⟩ := List.mem_map.mp hg
    obtain ⟨c0, cs, hcon, hbld⟩ := h3 p hp
    rw [toQuotaBucketState_modelIds, hbld, buildGroupFrom_modelIds]
    refine ⟨fun hnil => ?_, nodup_dedupKeepFirst _⟩
    have hmem : c0.modelId ∈ dedupKeepFirst (c0.modelId :: cs.map (·.modelId)) :=
      (mem_dedupKeepFirst _ _).mpr (List.mem_cons_self _ _)
    rw [hnil] at hmem
    exact List.not_mem_nil _ hmem
  · intro b hb hig
    have hk : geminiCliMapKey lookup b ∈
        (geminiCliGrouped lookup ignored parse bs).map Prod.fst :=
      (h2 _).mpr ⟨b, hb, hig, rfl⟩
    obtain ⟨p, hp, hpk⟩ := List.mem_map.mp hk
    refine ⟨p, hp, hpk,
      fun q hq hqk => eq_of_mem_keyNodup _ h1 q p hq hp (hqk.trans hpk.symm), ?_, ?_⟩
    · obtain ⟨c0, cs, hcon, hbld⟩ := h3 p hp
      rw [toQuotaBucketState_modelIds, hbld, buildGroupFrom_modelIds, mem_dedupKeepFirst]
      have hbcon : b ∈ geminiCliContribs lookup ignored p.1 bs := by
        rw [geminiCliContribs, List.mem_filter]
        exact ⟨hb, by simp [hig, hpk]⟩
      rw [hcon] at hbcon
      rcases List.mem_cons.mp hbcon with rfl | hb'
      · exact List.mem_cons_self _ _
      · exact List.mem_cons_of_mem _ (List.mem_map_of_mem _ hb')
    · rw [buildGemini_eq_map]
      exact List.mem_map_of_mem _ hp

/-- The rational 9/10, written in constructor form so that kernel evaluation
(`decide`) works on it. -/
def frac9of10 : ℚ := ⟨9, 10, by decide, by decide⟩

/-- The rational 1/10 in constructor form. -/
def frac1of10 : ℚ := ⟨1, 10, by decide, by decide⟩

/-- The rational 4/5 in constructor form. -/
def frac4of5 : ℚ := ⟨4, 5, by decide, by decide⟩

/-- The rational 3/10 in constructor form. -/
def frac3of10 : ℚ := ⟨3, 10, by decide, by decide⟩

/-- Configuration for concrete witnesses: one configured group `g-pro` with
member models `m-a`, `m-b` and preferred model `m-a`. -/
def sampleLookup : String → Option GroupDefinition := fun s =>
  if s = "m-a" then some ⟨"g-pro", "Pro", some "m-a"⟩
  else if s = "m-b" then some ⟨"g-pro", "Pro", some "m-a"⟩
  else none

/-- An ignore predicate for concrete witnesses. -/
def sampleIgnored : String → Bool := fun s => s = "m-old"

/-- Two buckets of one configured group: the preferred model at fraction 0.9,
a sibling at 0.1. -/
def sampleBucketsC1 : List GeminiCliParsedBucket :=
  [⟨"m-a", none, some frac9of10, none, none⟩, ⟨"m-b", none, some frac1of10, none, none⟩]

/-- The internal group record produced for `sampleBucketsC1`. -/
def sampleGroupC1 : GeminiCliQuotaBucketGroup :=
  ⟨"g-pro", "Pro", none, ["m-a", "m-b"], some "m-a",
    some ⟨"m-a", none, some frac9of10, none, none⟩, some frac1of10, none, none⟩

/-- Witness for C4 at a concrete input. -/
theorem claim_C4_witness :
    ∃ p, p ∈ geminiCliGrouped sampleLookup sampleIgnored sampleDateParse sampleBucketsC1 ∧
      p.1 = geminiCliMapKey sampleLookup ⟨"m-b", none, some frac1of10, none, none⟩ ∧
      (∀ q ∈ geminiCliGrouped sampleLookup sampleIgnored sampleDateParse sampleBucketsC1,
        q.1 = geminiCliMapKey sampleLookup ⟨"m-b", none, some frac1of10, none, none⟩ → q = p) ∧
      "m-b" ∈ (toQuotaBucketState p.2).modelIds ∧
      toQuotaBucketState p.2 ∈
        buildGeminiCliQuotaBuckets sampleLookup sampleIgnored sampleDateParse sampleBucketsC1 :=
  (claim_C4_group_membership sampleLookup sampleIgnored sampleDateParse sampleBucketsC1).2
    ⟨"m-b", none, some frac1of10, none, none⟩ (by decide) (by decide)

/-- C1: if some bucket of a composite group matches the group's configured
(non-empty) `preferredModelId`, the emitted group's `remainingFraction`,
`remainingAmount` and `resetTime` are taken verbatim from a matching bucket,
irrespective of the values reported by the other members. -/
theorem claim_C1_preferred_verbatim (lookup : String → Option GroupDefinition)
    (ignored : String → Bool) (parse : String → Option ℤ)
    (bs : List GeminiCliParsedBucket) (k : String) (g : GeminiCliQuotaBucketGroup)
    (hmem : (k, g) ∈ geminiCliGrouped lookup ignored parse bs)
    (p : String) (hpm : g.preferredModelId = some p) (hpne : p ≠ "")
    (hex : ∃ b ∈ geminiCliContribs lookup ignored k bs, b.modelId = p) :
    ∃ b ∈ geminiCliContribs lookup ignored k bs, b.modelId = p ∧
      (toQuotaBucketState g).remainingFraction = b.remainingFraction ∧
      (toQuotaBucketState g).remainingAmount = b.remainingAmount ∧
      (toQuotaBucketState g).resetTime = b.resetTime ∧
      toQuotaBucketState g ∈ buildGeminiCliQuotaBuckets lookup ignored parse bs := by
  obtain ⟨h1, h2, h3⟩ := geminiCliGrouped_spec lookup ignored parse bs
  obtain ⟨c0, cs, hcon0, hbld0⟩ := h3 (k, g) hmem
  have hcon : geminiCliContribs lookup ignored k bs = c0 :: cs := hcon0
  have hbld : g = buildGroupFrom lookup parse c0 cs := hbld0
  have hpm' : (lookup c0.modelId).bind (·.preferredModelId) = some p := by
    rw [← buildGroupFrom_preferredModelId lookup parse c0 cs, ← hbld]
    exact hpm
  have hpb : g.preferredBucket = lastPreferredMatch (some p) (c0 :: cs) := by
    rw [hbld, buildGroupFrom_preferredBucket, hpm']
  have hsome : (lastPreferredMatch (some p) (c0 :: cs)).isSome = true := by
    apply foldl_lastMatch_isSome
    left
    obtain ⟨b, hbmem, hbp⟩ := hex
    rw [hcon] at hbmem
    exact ⟨b, hbmem, (matchesPreferred_some hpne b).mpr hbp⟩
  obtain ⟨c, hc⟩ := Option.isSome_iff_exists.mp hsome
  rcases foldl_lastMatch_some (some p) (c0 :: cs) none c hc with ⟨hcl, hcm⟩ | hcn
  · obtain ⟨hf, ha, hr⟩ := toQuotaBucketState_preferred (hpb.trans hc)
    refine ⟨c, ?_, (matchesPreferred_some hpne c).mp hcm, hf, ha, hr, ?_⟩
    · rw [hcon]; exact hcl
    · rw [buildGemini_eq_map]
      exact List.mem_map_of_mem _ hmem
  · exact Option.noConfusion hcn

/-- Witness for C1: the preferred bucket at fraction 0.9 overrides the
sibling at 0.1, and the emitted fraction is 0.9. -/
theorem claim_C1_witness :
    (∃ b ∈ geminiCliContribs sampleLookup sampleIgnored "g-pro::" sampleBucketsC1,
      b.modelId = "m-a" ∧
      (toQuotaBucketState sampleGroupC1).remainingFraction = b.remainingFraction ∧
      (toQuotaBucketState sampleGroupC1).remainingAmount = b.remainingAmount ∧
      (toQuotaBucketState sampleGroupC1).resetTime = b.resetTime ∧
      toQuotaBucketState sampleGroupC1 ∈
        buildGeminiCliQuotaBuckets sampleLookup sampleIgnored sampleDateParse sampleBucketsC1) ∧
    (toQuotaBucketState sampleGroupC1).remainingFraction = some frac9of10 :=
  ⟨claim_C1_preferred_verbatim sampleLookup sampleIgnored sampleDateParse sampleBucketsC1
      "g-pro::" sampleGroupC1 (by decide) "m-a" (by decide) (by decide) (by decide),
   by decide⟩

/-- C2: when no bucket of the group matches a preferred model id, the emitted
fraction is the minimum over the members' non-null fractions (null exactly
when all are null), the amount independently likewise, and the reset time is
an earliest parseable member reset time (whenever some member reset time
parses). -/
theorem claim_C2_fallback_min (lookup : String → Option GroupDefinition)
    (ignored : String → Bool) (parse : String → Option ℤ)
    (bs : List GeminiCliParsedBucket) (k : String) (g : GeminiCliQuotaBucketGroup)
    (hmem : (k, g) ∈ geminiCliGrouped lookup ignored parse bs)
    (hnopref : ∀ b ∈ geminiCliContribs lookup ignored k bs,
      matchesPreferred g.preferredModelId b = false) :
    ((toQuotaBucketState g).remainingFraction = none ↔
      ∀ b ∈ geminiCliContribs lookup ignored k bs, b.remainingFraction = none) ∧
    (∀ v, (toQuotaBucketState g).remainingFraction = some v →
      (∃ b ∈ geminiCliContribs lookup ignored k bs, b.remainingFraction = some v) ∧
      ∀ b ∈ geminiCliContribs lookup ignored k bs,
        ∀ w, b.remainingFraction = some w → v ≤ w) ∧
    ((toQuotaBucketState g).remainingAmount = none ↔
      ∀ b ∈ geminiCliContribs lookup ignored k bs, b.remainingAmount = none) ∧
    (∀ v, (toQuotaBucketState g).remainingAmount = some v →
      (∃ b ∈ geminiCliContribs lookup ignored k bs, b.remainingAmount = some v) ∧
      ∀ b ∈ geminiCliContribs lookup ignored k bs,
        ∀ w, b.remainingAmount = some w → v ≤ w) ∧
    ((∃ b ∈ geminiCliContribs lookup ignored k bs,
        (parseOf parse b.resetTime).isSome = true) →
      ∃ b ∈ geminiCliContribs lookup ignored k bs,
        (toQuotaBucketState g).resetTime = b.resetTime ∧
        ∃ t, parseOf parse b.resetTime = some t ∧
          ∀ b' t', b' ∈ geminiCliContribs lookup ignored k bs →
            parseOf parse b'.resetTime = some t' → t ≤ t') := by
  obtain ⟨h1, h2, h3⟩ := geminiCliGrouped_spec lookup ignored parse bs
  obtain ⟨c0, cs, hcon0, hbld0⟩ := h3 (k, g) hmem
  have hcon : geminiCliContribs lookup ignored k bs = c0 :: cs := hcon0
  have hbld : g = buildGroupFrom lookup parse c0 cs := hbld0
  have hpb : g.preferredBucket = none := by
    rw [hbld, buildGroupFrom_preferredBucket]
    apply foldl_lastMatch_keep
    intro b hb
    have hfalse := hnopref b (by rw [hcon]; exact hb)
    rw [hbld, buildGroupFrom_preferredModelId] at hfalse
    exact hfalse
  obtain ⟨hfrac, hamt, hrst⟩ := toQuotaBucketState_fallback hpb
  rw [hcon] at hnopref ⊢
  obtain ⟨hfxiff, hfxsome⟩ := foldl_minNullable_spec ((c0 :: cs).map (·.remainingFraction)) none
  obtain ⟨haxiff, haxsome⟩ := foldl_minNullable_spec ((c0 :: cs).map (·.remainingAmount)) none
  refine ⟨?_, ?_, ?_, ?_, ?_⟩
  · rw [hfrac, hbld, buildGroupFrom_fallbackFraction, hfxiff]
    constructor
    · rintro ⟨-, hall⟩ b hb
      exact hall _ (List.mem_map_of_mem _ hb)
    · intro hall
      refine ⟨rfl, fun x hx => ?_⟩
      obtain ⟨b, hb, rfl⟩ := List.mem_map.mp hx
      exact hall b hb
  · intro v hv
    rw [hfrac, hbld, buildGroupFrom_fallbackFraction] at hv
    obtain ⟨hmem', -, hbound⟩ := hfxsome v hv
    refine ⟨?_, fun b hb w hw => hbound w (hw ▸ List.mem_map_of_mem _ hb)⟩
    rcases hmem' with h' | h'
    · exact Option.noConfusion h'
    · obtain ⟨b, hb, hbv⟩ := List.mem_map.mp h'
      exact ⟨b, hb, hbv⟩
  · rw [hamt, hbld, buildGroupFrom_fallbackAmount, haxiff]
    constructor
    · rintro ⟨-, hall⟩ b hb
      exact hall _ (List.mem_map_of_mem _ hb)
    · intro hall
      refine ⟨rfl, fun x hx => ?_⟩
      obtain ⟨b, hb, rfl⟩ := List.mem_map.mp hx
      exact hall b hb
  · intro v hv
    rw [hamt, hbld, buildGroupFrom_fallbackAmount] at hv
    obtain ⟨hmem', -, hbound⟩ := haxsome v hv
    refine ⟨?_, fun b hb w hw => hbound w (hw ▸ List.mem_map_of_mem _ hb)⟩
    rcases hmem' with h' | h'
    · exact Option.noConfusion h'
    · obtain ⟨b, hb, hbv⟩ := List.mem_map.mp h'
      exact ⟨b, hb, hbv⟩
  · rintro ⟨b, hb, hbsome⟩
    obtain ⟨t, ht, hloc, -, hbmin⟩ := foldl_pickEarlier_min parse
      ((c0 :: cs).map (·.resetTime)) none
      (Or.inr ⟨b.resetTime, List.mem_map_of_mem _ hb, hbsome⟩)
    rcases hloc with hrn | hrm
    · rw [hrn] at ht
      simp [parseOf] at ht
    · obtain ⟨b', hb', hbr⟩ := List.mem_map.mp hrm
      refine ⟨b', hb', ?_, t, ?_,
        fun b'' t' hb'' ht'' => hbmin b''.resetTime t' (List.mem_map_of_mem _ hb'') ht''⟩
      · rw [hrst, hbld, buildGroupFrom_fallbackResetTime, ← hbr]
      · rw [hbr]; exact ht

/-- Two buckets with the same (unconfigured) model id and fractions 0.8 and
0.3. -/
def sampleBucketsC2 : List GeminiCliParsedBucket :=
  [⟨"m-solo", none, some frac4of5, none, none⟩, ⟨"m-solo", none, some frac3of10, none, none⟩]

/-- The internal group record produced for `sampleBucketsC2`. -/
def sampleGroupC2 : GeminiCliQuotaBucketGroup :=
  ⟨"m-solo", "m-solo", none, ["m-solo", "m-solo"], none, none, some frac3of10, none, none⟩

/-- Witness for C2: fractions 0.8 and 0.3 fold to 0.3, and the model ids are
deduplicated to one entry. -/
theorem claim_C2_witness :
    (toQuotaBucketState sampleGroupC2).remainingFraction = some frac3of10 ∧
    (toQuotaBucketState sampleGroupC2).modelIds = ["m-solo"] ∧
    ((∃ b ∈ geminiCliContribs sampleLookup sampleIgnored "m-solo::" sampleBucketsC2,
        b.remainingFraction = some frac3of10) ∧
      ∀ b ∈ geminiCliContribs sampleLookup sampleIgnored "m-solo::" sampleBucketsC2,
        ∀ w, b.remainingFraction = some w → frac3of10 ≤ w) :=
  ⟨by decide, by decide,
   (claim_C2_fallback_min sampleLookup sampleIgnored sampleDateParse sampleBucketsC2
      "m-solo::" sampleGroupC2 (by decide) (by decide)).2.1 frac3of10 (by decide)⟩

/-- The nested quota-info object (`quotaInfo` / `quota_info` shapes of an
`AntigravityQuotaInfo` entry). -/
structure AntigravityQuotaInfoFields where
  remainingFraction : Option ℚ
  remaining_fraction : Option ℚ
  remaining : Option ℚ
  resetTime : Option String
  reset_time : Option String
deriving DecidableEq

/-- A provider entry of the models payload (`AntigravityQuotaInfo`). -/
structure AntigravityQuotaInfo where
  quotaInfo : Option AntigravityQuotaInfoFields
  quota_info : Option AntigravityQuotaInfoFields
  displayName : Option String
deriving DecidableEq

/-- The summary record returned by `getAntigravityQuotaInfo`. -/
structure AntigravityQuotaSummary where
  remainingFraction : Option ℚ
  resetTime : Option String
  displayName : Option String
deriving DecidableEq

/-- An emitted antigravity quota group (`AntigravityQuotaGroup`);
`remainingFraction` is non-null on every emitted group. -/
structure AntigravityQuotaGroup where
  id : String
  label : String
  models : List String
  remainingFraction : ℚ
  resetTime : Option String
deriving DecidableEq

/-- Modelled from the spec: `normalizeQuotaFraction` lives in
`src/utils/parsers.ts`, which is not among the provided sources.  Spec §4.1:
a numeric-like remaining value in fraction (0–1) or percentage (0–100) scale
is clamped into [0, 1]; `null` when the input is missing.  (Non-numeric raw
values, which §4.1 also sends to `null`, are outside this `Option ℚ` typed
model.) -/
def normalizeQuotaFraction : Option ℚ → Option ℚ
  | none => none
  | some v => some (min 1 (max 0 (if 1 < v then v / 100 else v)))

/-- The empty object `{}` of `entry.quotaInfo ?? entry.quota_info ?? {}`. -/
def emptyQuotaInfoFields : AntigravityQuotaInfoFields := ⟨none, none, none, none, none⟩

/-- Embedding of `getAntigravityQuotaInfo` (`src/utils/format.ts`, lines
286–307).  The `typeof resetValue === 'string'` and
`typeof entry.displayName === 'string'` guards are identities in this typed
model. -/
def getAntigravityQuotaInfo : Option AntigravityQuotaInfo → AntigravityQuotaSummary
  | none => ⟨none, none, none⟩
  | some entry =>
    let quotaInfo := (nullish entry.quotaInfo entry.quota_info).getD emptyQuotaInfoFields
    let remainingValue :=
      nullish quotaInfo.remainingFraction
        (nullish quotaInfo.remaining_fraction quotaInfo.remaining)
    ⟨normalizeQuotaFraction remainingValue,
     nullish quotaInfo.resetTime quotaInfo.reset_time,
     entry.displayName⟩

/-- The ignore set of the antigravity builder (`src/unnamed/part_002`,
lines 78–84). -/
def IGNORED_ANTIGRAVITY_MODELS : List String :=
  ["tab_flash_lite_preview", "gpt-oss-120b-medium", "chat_20706", "chat_23310", "ulw"]

/-- `modelId.toLowerCase().startsWith('claude')` (`src/unnamed/part_002`,
lines 86–88), expressed on the character lists (case-fold each character,
then check the prefix) so that it is kernel-computable. -/
def isClaudeModel (modelId : String) : Bool :=
  "claude".toList.isPrefixOf (modelId.toList.map Char.toLower)

/-- `info.remainingFraction ?? (info.resetTime ? 0 : null)`: the derived
fraction of one entry, with the exhausted-default applied; the ternary uses
string truthiness (`src/unnamed/part_002`, line 96; `src/utils/format.ts`,
line 316). -/
def antigravityDerivedFraction (info : AntigravityQuotaSummary) : Option ℚ :=
  match info.remainingFraction with
  | some v => some v
  | none => if optTruthy info.resetTime then some 0 else none

/-- One iteration of the entries loop of the feature-complete
`buildAntigravityQuotaGroups` (`src/unnamed/part_002`, lines 91–128); the
state pairs the `groups` array with the mutable `claudeGroup`. -/
def antigravityStep (parse : String → Option ℤ)
    (st : List AntigravityQuotaGroup × Option AntigravityQuotaGroup)
    (e : String × Option AntigravityQuotaInfo) :
    List AntigravityQuotaGroup × Option AntigravityQuotaGroup :=
  if IGNORED_ANTIGRAVITY_MODELS.contains e.1 then st
  else
    let info := getAntigravityQuotaInfo e.2
    match antigravityDerivedFraction info with
    | none => st
    | some remainingFraction =>
      if isClaudeModel e.1 then
        match st.2 with
        | none =>
          (st.1, some ⟨"claude-merged", "Claude", [e.1], remainingFraction, info.resetTime⟩)
        | some cg =>
          (st.1, some { cg with
            models := cg.models ++ [e.1]
            remainingFraction := min cg.remainingFraction remainingFraction
            resetTime := pickEarlierResetTime parse cg.resetTime info.resetTime })
      else
        (st.1 ++ [⟨e.1, info.displayName.getD e.1, [e.1], remainingFraction, info.resetTime⟩],
         st.2)

/-- Embedding of `buildAntigravityQuotaGroups`, the feature-complete variant
with the Claude family merge (`src/unnamed/part_002`, lines 90–134);
`Object.entries(models)` becomes an association list in key order, and the
final `unshift` places the merged group first. -/
def buildAntigravityQuotaGroups (parse : String → Option ℤ)
    (models : List (String × Option AntigravityQuotaInfo)) : List AntigravityQuotaGroup :=
  match models.foldl (antigravityStep parse) ([], none) with
  | (groups, none) => groups
  | (groups, some cg) => cg :: groups

/-- Embedding of the `buildAntigravityQuotaGroups` variant of
`src/utils/format.ts` (lines 309–329), which has no ignore set and no Claude
merge; named `Basic` to keep the two same-named source variants apart. -/
def buildAntigravityQuotaGroupsBasic
    (models : List (String × Option AntigravityQuotaInfo)) : List AntigravityQuotaGroup :=
  models.foldl (fun groups e =>
    match antigravityDerivedFraction (getAntigravityQuotaInfo e.2) with
    | none => groups
    | some remainingFraction =>
      groups ++ [⟨e.1, (getAntigravityQuotaInfo e.2).displayName.getD e.1, [e.1],
        remainingFraction, (getAntigravityQuotaInfo e.2).resetTime⟩]) []

/-- The retained entries of the payload (not ignored, derived fraction
present), with their model id, derived fraction and summary. -/
def antigravityRetained (models : List (String × Option AntigravityQuotaInfo)) :
    List (String × ℚ × AntigravityQuotaSummary) :=
  models.filterMap fun e =>
    if IGNORED_ANTIGRAVITY_MODELS.contains e.1 then none
    else
      match antigravityDerivedFraction (getAntigravityQuotaInfo e.2) with
      | none => none
      | some f => some (e.1, f, getAntigravityQuotaInfo e.2)

/-- The retained entries of the Claude family. -/
def antigravityClaudeRetained (models : List (String × Option AntigravityQuotaInfo)) :
    List (String × ℚ × AntigravityQuotaSummary) :=
  (antigravityRetained models).filter fun r => isClaudeModel r.1

/-- The retained entries outside the Claude family. -/
def antigravityOtherRetained (models : List (String × Option AntigravityQuotaInfo)) :
    List (String × ℚ × AntigravityQuotaSummary) :=
  (antigravityRetained models).filter fun r => !(isClaudeModel r.1)

/-- The individual group pushed for one retained non-Claude entry. -/
def mkIndividualGroup (r : String × ℚ × AntigravityQuotaSummary) : AntigravityQuotaGroup :=
  ⟨r.1, r.2.2.displayName.getD r.1, [r.1], r.2.1, r.2.2.resetTime⟩

/-- The update of the mutable `claudeGroup` by one retained Claude entry. -/
def claudeStep (parse : String → Option ℤ) (acc : Option AntigravityQuotaGroup)
    (r : String × ℚ × AntigravityQuotaSummary) : Option AntigravityQuotaGroup :=
  match acc with
  | none => some ⟨"claude-merged", "Claude", [r.1], r.2.1, r.2.2.resetTime⟩
  | some cg => some { cg with
      models := cg.models ++ [r.1]
      remainingFraction := min cg.remainingFraction r.2.1
      resetTime := pickEarlierResetTime parse cg.resetTime r.2.2.resetTime }

/-- Structural characterization of the antigravity fold: the groups array
collects the non-Claude retained entries in order, and the Claude group is
the fold of the retained Claude entries. -/
theorem antigravityFold_spec (parse : String → Option ℤ) :
    ∀ (models : List (String × Option AntigravityQuotaInfo))
      (gs : List AntigravityQuotaGroup) (cg : Option AntigravityQuotaGroup),
      models.foldl (antigravityStep parse) (gs, cg) =
        (gs ++ (antigravityOtherRetained models).map mkIndividualGroup,
         (antigravityClaudeRetained models).foldl (claudeStep parse) cg) := by
  intro models
  induction models with
  | nil => intro gs cg; simp [antigravityOtherRetained, antigravityClaudeRetained,
      antigravityRetained]
  | cons e rest ih =>
    intro gs cg
    rw [List.foldl_cons]
    by_cases hig : e.1 ∈ IGNORED_ANTIGRAVITY_MODELS
    · have hstep : antigravityStep parse (gs, cg) e = (gs, cg) := by
        simp [antigravityStep, hig]
      rw [hstep, ih]
      have hret : antigravityRetained (e :: rest) = antigravityRetained rest := by
        simp [antigravityRetained, List.filterMap_cons, hig]
      simp only [antigravityOtherRetained, antigravityClaudeRetained]
      rw [hret]
    · rcases hdf : antigravityDerivedFraction (getAntigravityQuotaInfo e.2) with _ | f
      · have hstep : antigravityStep parse (gs, cg) e = (gs, cg) := by
          simp [antigravityStep, hig, hdf]
        rw [hstep, ih]
        have hret : antigravityRetained (e :: rest) = antigravityRetained rest := by
          simp [antigravityRetained, List.filterMap_cons, hig, hdf]
        simp only [antigravityOtherRetained, antigravityClaudeRetained]
        rw [hret]
      · have hret : antigravityRetained (e :: rest) =
            (e.1, f, getAntigravityQuotaInfo e.2) :: antigravityRetained rest := by
          simp [antigravityRetained, List.filterMap_cons, hig, hdf]
        by_cases hcl : isClaudeModel e.1 = true
        · have hstep : antigravityStep parse (gs, cg) e =
              (gs, claudeStep parse cg (e.1, f, getAntigravityQuotaInfo e.2)) := by
            cases cg <;> simp [antigravityStep, hig, hdf, hcl, claudeStep]
          rw [hstep, ih]
          simp only [antigravityOtherRetained, antigravityClaudeRetained]
          rw [hret, List.filter_cons, List.filter_cons]
          simp only [hcl, Bool.not_true, if_neg Bool.false_ne_true, if_pos rfl]
          simp only [if_true, List.foldl_cons]
        · rw [Bool.not_eq_true] at hcl
          have hstep : antigravityStep parse (gs, cg) e =
              (gs ++ [mkIndividualGroup (e.1, f, getAntigravityQuotaInfo e.2)], cg) := by
            simp [antigravityStep, hig, hdf, hcl, mkIndividualGroup]
          rw [hstep, ih]
          simp only [antigravityOtherRetained, antigravityClaudeRetained]
          rw [hret, List.filter_cons, List.filter_cons]
          simp only [hcl, Bool.not_false, if_pos rfl, if_neg Bool.false_ne_true,
            List.map_cons]
          simp

theorem claudeFold_some (parse : String → Option ℤ) :
    ∀ (rs : List (String × ℚ × AntigravityQuotaSummary)) (cg : AntigravityQuotaGroup),
      rs.foldl (claudeStep parse) (some cg) =
        some ⟨cg.id, cg.label, cg.models ++ rs.map (·.1),
          (rs.map (·.2.1)).foldl min cg.remainingFraction,
          (rs.map (·.2.2.resetTime)).foldl (pickEarlierResetTime parse) cg.resetTime⟩ := by
  intro rs
  induction rs with
  | nil => intro cg; simp
  | cons r rest ih =>
    intro cg
    rw [List.foldl_cons]
    have hstep : claudeStep parse (some cg) r = some { cg with
        models := cg.models ++ [r.1]
        remainingFraction := min cg.remainingFraction r.2.1
        resetTime := pickEarlierResetTime parse cg.resetTime r.2.2.resetTime } := rfl
    rw [hstep, ih]
    simp [List.append_assoc]

theorem foldl_min_spec : ∀ (l : List ℚ) (a : ℚ),
    (l.foldl min a = a ∨ l.foldl min a ∈ l) ∧
    l.foldl min a ≤ a ∧ ∀ x ∈ l, l.foldl min a ≤ x := by
  intro l
  induction l with
  | nil => intro a; exact ⟨Or.inl rfl, le_refl a, by simp⟩
  | cons x rest ih =>
    intro a
    simp only [List.foldl_cons]
    obtain ⟨hloc, hle, hall⟩ := ih (min a x)
    refine ⟨?_, le_trans hle (min_le_left _ _), fun y hy => ?_⟩
    · rcases hloc with h | h
      · rcases min_choice a x with h' | h'
        · exact Or.inl (h.trans h')
        · exact Or.inr (List.mem_cons.mpr (Or.inl (h.trans h')))
      · exact Or.inr (List.mem_cons_of_mem _ h)
    · rcases List.mem_cons.mp hy with rfl | hy'
      · exact le_trans hle (min_le_right _ _)
      · exact hall y hy'

theorem mem_otherRetained_not_claude (models : List (String × Option AntigravityQuotaInfo)) :
    ∀ g ∈ (antigravityOtherRetained models).map mkIndividualGroup,
      isClaudeModel g.id = false := by
  intro g hg
  obtain ⟨r, hr, rfl⟩ := List.mem_map.mp hg
  have := (List.mem_filter.mp hr).2
  simp only [Bool.not_eq_true'] at this
  exact this

/-- C3: the merged-variant group builder never emits an individual group for
a Claude-family model: with no retained Claude entry no emitted group has a
Claude-family id, and with at least one the output starts with exactly one
synthesized group of fixed id `"claude-merged"` and label `"Claude"`
collecting all retained Claude models in order, whose remainingFraction is
the minimum over the members' derived fractions and whose resetTime is an
earliest parseable member reset time; every other emitted group is
Claude-free. -/
theorem claim_C3_claude_merge (parse : String → Option ℤ)
    (models : List (String × Option AntigravityQuotaInfo)) :
    (antigravityClaudeRetained models = [] →
      ∀ g ∈ buildAntigravityQuotaGroups parse models, isClaudeModel g.id = false) ∧
    (∀ r0 rs, antigravityClaudeRetained models = r0 :: rs →
      ∃ cg rest, buildAntigravityQuotaGroups parse models = cg :: rest ∧
        cg.id = "claude-merged" ∧ cg.label = "Claude" ∧
        cg.models = (antigravityClaudeRetained models).map (·.1) ∧
        (cg.remainingFraction ∈ (antigravityClaudeRetained models).map (·.2.1) ∧
          ∀ q ∈ (antigravityClaudeRetained models).map (·.2.1),
            cg.remainingFraction ≤ q) ∧
        ((∃ r ∈ antigravityClaudeRetained models,
            (parseOf parse r.2.2.resetTime).isSome = true) →
          ∃ r ∈ antigravityClaudeRetained models, cg.resetTime = r.2.2.resetTime ∧
            ∃ t, parseOf parse r.2.2.resetTime = some t ∧
              ∀ r' t', r' ∈ antigravityClaudeRetained models →
                parseOf parse r'.2.2.resetTime = some t' → t ≤ t') ∧
        (∀ g ∈ rest, isClaudeModel g.id = false ∧ g.id ≠ "claude-merged")) := by
  have hfold := antigravityFold_spec parse models [] none
  constructor
  · intro hempty g hg
    rw [buildAntigravityQuotaGroups, hfold, hempty] at hg
    simp only [List.foldl_nil, List.nil_append] at hg
    exact mem_otherRetained_not_claude models g hg
  · intro r0 rs hcr
    have hcg : (antigravityClaudeRetained models).foldl (claudeStep parse) none =
        some ⟨"claude-merged", "Claude", r0.1 :: rs.map (·.1),
          (rs.map (·.2.1)).foldl min r0.2.1,
          (rs.map (·.2.2.resetTime)).foldl (pickEarlierResetTime parse) r0.2.2.resetTime⟩ := by
      rw [hcr, List.foldl_cons]
      have hinit : claudeStep parse none r0 =
          some ⟨"claude-merged", "Claude", [r0.1], r0.2.1, r0.2.2.resetTime⟩ := rfl
      rw [hinit, claudeFold_some]
      rfl
    refine ⟨⟨"claude-merged", "Claude", r0.1 :: rs.map (·.1),
        (rs.map (·.2.1)).foldl min r0.2.1,
        (rs.map (·.2.2.resetTime)).foldl (pickEarlierResetTime parse) r0.2.2.resetTime⟩,
      (antigravityOtherRetained models).map mkIndividualGroup, ?_, rfl, rfl,
      ?_, ⟨?_, ?_⟩, ?_, ?_⟩
    · rw [buildAntigravityQuotaGroups, hfold, hcg]
      simp
    · rw [hcr]
      simp
    · rcases (foldl_min_spec (rs.map (·.2.1)) r0.2.1).1 with h | h
      · rw [hcr, List.map_cons, h]
        exact List.mem_cons_self _ _
      · rw [hcr, List.map_cons]
        exact List.mem_cons_of_mem _ h
    · obtain ⟨-, hle, hall⟩ := foldl_min_spec (rs.map (·.2.1)) r0.2.1
      intro q hq
      rw [hcr, List.map_cons] at hq
      rcases List.mem_cons.mp hq with rfl | hq'
      · exact hle
      · exact hall q hq'
    · rintro ⟨r, hr, hrsome⟩
      rw [hcr] at hr
      have heq : (rs.map (·.2.2.resetTime)).foldl (pickEarlierResetTime parse)
          r0.2.2.resetTime =
          ((r0 :: rs).map (·.2.2.resetTime)).foldl (pickEarlierResetTime parse) none := rfl
      obtain ⟨t, ht, hloc, -, hbmem⟩ := foldl_pickEarlier_min parse
        ((r0 :: rs).map (·.2.2.resetTime)) none
        (Or.inr ⟨r.2.2.resetTime, List.mem_map_of_mem _ hr, hrsome⟩)
      rw [← heq] at ht hloc
      rcases hloc with hrn | hrm
      · rw [hrn] at ht
        simp [parseOf] at ht
      · obtain ⟨r', hr', hbr⟩ := List.mem_map.mp hrm
        refine ⟨r', by rw [hcr]; exact hr', hbr.symm, t, ?_, ?_⟩
        · rw [hbr]; exact ht
        · intro r'' t' hr'' ht''
          rw [hcr] at hr''
          exact hbmem r''.2.2.resetTime t' (List.mem_map_of_mem _ hr'') ht''
    · intro g hg
      refine ⟨mem_otherRetained_not_claude models g hg, fun hid => ?_⟩
      have h1 : isClaudeModel g.id = false := mem_otherRetained_not_claude models g hg
      rw [hid] at h1
      have h2 : isClaudeModel "claude-merged" = true := by decide
      rw [h1] at h2
      exact Bool.false_ne_true h2

/-- The rational 1/2 in constructor form. -/
def frac1of2 : ℚ := ⟨1, 2, by decide, by decide⟩

/-- The rational 1/5 in constructor form. -/
def frac1of5 : ℚ := ⟨1, 5, by decide, by decide⟩

/-- A models payload with `claude-3-opus` at fraction 0.5 and
`claude-instant` at fraction 0.2. -/
def sampleModelsC3 : List (String × Option AntigravityQuotaInfo) :=
  [("claude-3-opus", some ⟨some ⟨some frac1of2, none, none, none, none⟩, none, none⟩),
   ("claude-instant", some ⟨some ⟨some frac1of5, none, none, none, none⟩, none, none⟩)]

/-- Witness for C3: the two Claude models collapse into one `claude-merged`
group with fraction 0.2 and both model ids, placed first. -/
theorem claim_C3_witness :
    buildAntigravityQuotaGroups sampleDateParse sampleModelsC3 =
      [⟨"claude-merged", "Claude", ["claude-3-opus", "claude-instant"], frac1of5, none⟩] ∧
    (∃ cg rest, buildAntigravityQuotaGroups sampleDateParse sampleModelsC3 = cg :: rest ∧
      cg.id = "claude-merged" ∧ cg.label = "Claude" ∧
      cg.models = (antigravityClaudeRetained sampleModelsC3).map (·.1) ∧
      (cg.remainingFraction ∈ (antigravityClaudeRetained sampleModelsC3).map (·.2.1) ∧
        ∀ q ∈ (antigravityClaudeRetained sampleModelsC3).map (·.2.1),
          cg.remainingFraction ≤ q) ∧
      ((∃ r ∈ antigravityClaudeRetained sampleModelsC3,
          (parseOf sampleDateParse r.2.2.resetTime).isSome = true) →
        ∃ r ∈ antigravityClaudeRetained sampleModelsC3, cg.resetTime = r.2.2.resetTime ∧
          ∃ t, parseOf sampleDateParse r.2.2.resetTime = some t ∧
            ∀ r' t', r' ∈ antigravityClaudeRetained sampleModelsC3 →
              parseOf sampleDateParse r'.2.2.resetTime = some t' → t ≤ t') ∧
      (∀ g ∈ rest, isClaudeModel g.id = false ∧ g.id ≠ "claude-merged")) :=
  ⟨by decide,
   (claim_C3_claude_merge sampleDateParse sampleModelsC3).2
      ("claude-3-opus", frac1of2, ⟨some frac1of2, none, none⟩)
      [("claude-instant", frac1of5, ⟨some frac1of5, none, none⟩)] (by decide)⟩

/-- A payload entry with no usable fraction and the present — but empty —
reset-time string. -/
def sampleEntryC5 : Option AntigravityQuotaInfo :=
  some ⟨some ⟨none, none, none, some "", none⟩, none, none⟩

/-- C5 counterexample: an entry whose normalized fraction is null and whose
`resetTime` is present but equal to the empty string is dropped entirely by
both builder variants — no group with `remainingFraction = 0` is emitted for
it, because `info.resetTime ? 0 : null` uses string truthiness and the empty
string is falsy. -/
theorem claim_C5_counterexample :
    (getAntigravityQuotaInfo sampleEntryC5).remainingFraction = none ∧
    (getAntigravityQuotaInfo sampleEntryC5).resetTime = some "" ∧
    buildAntigravityQuotaGroupsBasic [("model-x", sampleEntryC5)] = [] ∧
    buildAntigravityQuotaGroups sampleDateParse [("model-x", sampleEntryC5)] = [] := by
  exact ⟨rfl, rfl, rfl, rfl⟩

/-- The basic builder is the `filterMap` of the per-entry group maker. -/
theorem buildBasic_eq_filterMap :
    ∀ (models : List (String × Option AntigravityQuotaInfo))
      (gs : List AntigravityQuotaGroup),
      models.foldl (fun groups e =>
        match antigravityDerivedFraction (getAntigravityQuotaInfo e.2) with
        | none => groups
        | some remainingFraction =>
          groups ++ [⟨e.1, (getAntigravityQuotaInfo e.2).displayName.getD e.1, [e.1],
            remainingFraction, (getAntigravityQuotaInfo e.2).resetTime⟩]) gs =
      gs ++ models.filterMap (fun e =>
        match antigravityDerivedFraction (getAntigravityQuotaInfo e.2) with
        | none => none
        | some remainingFraction =>
          some ⟨e.1, (getAntigravityQuotaInfo e.2).displayName.getD e.1, [e.1],
            remainingFraction, (getAntigravityQuotaInfo e.2).resetTime⟩) := by
  intro models
  induction models with
  | nil => intro gs; simp
  | cons e rest ih =>
    intro gs
    rw [List.foldl_cons, List.filterMap_cons]
    rcases hdf : antigravityDerivedFraction (getAntigravityQuotaInfo e.2) with _ | f
    · simp only [hdf]
      exact ih gs
    · simp only [hdf]
      rw [ih (gs ++ [_]), List.append_assoc]
      rfl

/-- C5 (amended): for each payload entry with unique keys, if the normalized
fraction is null but the `resetTime` is present and non-empty, a group with
`remainingFraction` exactly 0 (not null) is emitted for that model; if the
fraction is null and the `resetTime` is absent or the empty string, no group
for that model is emitted at all. -/
theorem claim_C5_default_zero (models : List (String × Option AntigravityQuotaInfo))
    (hkeys : (models.map Prod.fst).Nodup) :
    ∀ e ∈ models,
      (getAntigravityQuotaInfo e.2).remainingFraction = none →
      ((∃ s, (getAntigravityQuotaInfo e.2).resetTime = some s ∧ s ≠ "") →
        ∃ g ∈ buildAntigravityQuotaGroupsBasic models,
          g.id = e.1 ∧ g.remainingFraction = 0) ∧
      (((getAntigravityQuotaInfo e.2).resetTime = none ∨
        (getAntigravityQuotaInfo e.2).resetTime = some "") →
        ∀ g ∈ buildAntigravityQuotaGroupsBasic models, g.id ≠ e.1) := by
  intro e hmem hfrac
  have hbuild : buildAntigravityQuotaGroupsBasic models =
      models.filterMap (fun e =>
        match antigravityDerivedFraction (getAntigravityQuotaInfo e.2) with
        | none => none
        | some remainingFraction =>
          some ⟨e.1, (getAntigravityQuotaInfo e.2).displayName.getD e.1, [e.1],
            remainingFraction, (getAntigravityQuotaInfo e.2).resetTime⟩) :=
    buildBasic_eq_filterMap models []
  constructor
  · rintro ⟨s, hs, hsne⟩
    have hdf : antigravityDerivedFraction (getAntigravityQuotaInfo e.2) = some 0 := by
      rw [antigravityDerivedFraction, hfrac, hs]
      simp [optTruthy, hsne]
    refine ⟨⟨e.1, (getAntigravityQuotaInfo e.2).displayName.getD e.1, [e.1], 0,
      (getAntigravityQuotaInfo e.2).resetTime⟩, ?_, rfl, rfl⟩
    rw [hbuild]
    apply List.mem_filterMap.mpr
    exact ⟨e, hmem, by rw [hdf]⟩
  · intro hreset g hg hid
    have hdf : antigravityDerivedFraction (getAntigravityQuotaInfo e.2) = none := by
      rw [antigravityDerivedFraction, hfrac]
      rcases hreset with h | h <;> rw [h] <;> simp [optTruthy]
    rw [hbuild] at hg
    obtain ⟨e', he', hge⟩ := List.mem_filterMap.mp hg
    rcases hdf' : antigravityDerivedFraction (getAntigravityQuotaInfo e'.2) with _ | f
    · rw [hdf'] at hge
      exact Option.noConfusion hge
    · rw [hdf'] at hge
      have hgid : g.id = e'.1 := by
        rw [← Option.some.inj hge]
      have hkey : e'.1 = e.1 := by rw [← hgid, hid]
      have : e' = e := eq_of_mem_keyNodup models hkeys e' e he' hmem hkey
      rw [this, hdf] at hdf'
      exact Option.noConfusion hdf'

/-- A payload with one entry lacking a fraction but carrying a real reset
time. -/
def sampleModelsC5 : List (String × Option AntigravityQuotaInfo) :=
  [("model-y", some ⟨some ⟨none, none, none, some "2025-01-01T00:00:00Z", none⟩, none, none⟩)]

/-- Witness for the amended C5: a null fraction with a non-empty resetTime
yields a group with fraction exactly 0. -/
theorem claim_C5_witness :
    ∃ g ∈ buildAntigravityQuotaGroupsBasic sampleModelsC5,
      g.id = "model-y" ∧ g.remainingFraction = 0 :=
  ((claim_C5_default_zero sampleModelsC5 (by decide)
      ("model-y", some ⟨some ⟨none, none, none, some "2025-01-01T00:00:00Z", none⟩, none, none⟩)
      (by decide) (by decide)).1
    ⟨"2025-01-01T00:00:00Z", by decide, by decide⟩)
